import Mathlib

/-!
A verification development for the passmate versioned record store.

The definitions below are a shallow embedding of the core of the program:
the versioned field tuples (src/passmate/raw_db.py), the raw database with
its update/merge/serialization logic, and the session layer with its live
record projections (src/passmate/session.py).  Python lists become Lean
lists, dicts become association lists (Python dicts preserve insertion
order, which is observable through serialization, so ordered association
lists are the faithful model), machine integers become Int, raised
exceptions become Except / explicit error components, and in-place
mutation becomes explicit state passing.
-/

/-- Errors raised as DatabaseException in src/passmate/raw_db.py.  The
Python class carries a message string; the constructors below stand for the
distinct messages / raise sites. -/
inductive DBError where
  /-- "Attempt to insert two identical field tuples with same mtime." -/
  | duplicateTuple
  /-- "Attempt to insert two different field tuples with same mtime." -/
  | conflictingTuple
  /-- "update() called with must_created_record, but record already exists." -/
  | mustCreateButExists
  /-- "update() called with cannot_create_record, but record does not exist." -/
  | cannotCreateButMissing
  /-- "json() called on sync copy" -/
  | jsonOnSyncCopy
  /-- jsonschema.validate failure in RawDatabase.from_json -/
  | schemaViolation
  deriving Repr, DecidableEq

/-- FieldTuple from src/passmate/raw_db.py: one immutable versioned fact.
field_value is nullable in the schema (null marks deletion), hence
Option String; mtime is a Python int, hence Int. -/
structure FieldTuple where
  domain : String
  field_name : String
  field_value : Option String
  mtime : Int
  deriving Repr, DecidableEq

instance : Inhabited FieldTuple := ⟨⟨"", "", none, 0⟩⟩

/-- FieldTuple.json: tuples serialize as (domain, field_name, field_value, mtime). -/
def FieldTuple.json (ft : FieldTuple) : String × String × Option String × Int :=
  (ft.domain, ft.field_name, ft.field_value, ft.mtime)

/-- A RawRecord is a Python list of FieldTuples. -/
abbrev RawRecord := List FieldTuple

/-- RawDatabaseUpdate namedtuple: (record_id, field_tuple). -/
structure RawDatabaseUpdate where
  record_id : String
  field_tuple : FieldTuple
  deriving Repr, DecidableEq

/-- Python list.insert(n, a): inserts before position n, appending when n is
past the end. -/
def insertAt (n : Nat) (a : α) (l : List α) : List α :=
  match n, l with
  | 0, l => a :: l
  | _ + 1, [] => [a]
  | n + 1, x :: xs => x :: insertAt n a xs

/-- Association-list lookup, modelling Python dict indexing. -/
def alLookup (k : String) : List (String × α) → Option α
  | [] => none
  | (k', v) :: rest => if k' = k then some v else alLookup k rest

/-- Association-list store, modelling Python dict assignment: replaces the
value in place when the key is present (dicts keep the original position),
appends a new entry otherwise. -/
def alInsert (k : String) (v : α) : List (String × α) → List (String × α)
  | [] => [(k, v)]
  | (k', v') :: rest =>
      if k' = k then (k, v) :: rest else (k', v') :: alInsert k v rest

/-- Association-list removal, modelling Python del d[k]. -/
def alErase (k : String) : List (String × α) → List (String × α)
  | [] => []
  | (k', v') :: rest => if k' = k then rest else (k', v') :: alErase k rest

/-- The loop of CPython's bisect.bisect_left specialized to the use in
RawRecord.would_update: the list is searched with key -mtime (FieldTuple
compares by inverse mtime through its custom lt). -/
def bisectLeftGo (rec : RawRecord) (x : Int) : Nat → Nat → Nat → Nat
  | 0, lo, _ => lo
  | fuel + 1, lo, hi =>
    if lo < hi then
      let mid := (lo + hi) / 2
      if -(rec.getD mid default).mtime < x then bisectLeftGo rec x fuel (mid + 1) hi
      else bisectLeftGo rec x fuel lo mid
    else lo

/-- bisect.bisect_left(self, -field_tuple.mtime) in RawRecord.would_update.
The while-loop is modelled with fuel; hi - lo shrinks on every iteration,
so fuel = length runs the loop to completion. -/
def bisectLeft (rec : RawRecord) (x : Int) : Nat :=
  bisectLeftGo rec x rec.length 0 rec.length

/-- The duplicate-scan while-loop of RawRecord.would_update, walking the
suffix of the record that starts at the insertion point.  Returns true when
an identical tuple was found and is to be ignored (Python: return None). -/
def scanDup (ft : FieldTuple) (ignore_existing : Bool) : RawRecord → Except DBError Bool
  | [] => .ok false
  | t :: rest =>
    if t.mtime = ft.mtime then
      if t.field_name = ft.field_name ∧ t.domain = ft.domain then
        if t = ft then
          if ignore_existing then .ok true else .error .duplicateTuple
        else .error .conflictingTuple
      else scanDup ft ignore_existing rest
    else .ok false

/-- RawRecord.would_update: position where field_tuple is to be inserted,
none when an identical tuple is present and ignored, error on a duplicate
or conflicting tuple at the same mtime. -/
def RawRecord.would_update (rec : RawRecord) (ft : FieldTuple)
    (ignore_existing : Bool) : Except DBError (Option Nat) :=
  let insertion_point := bisectLeft rec (-ft.mtime)
  match scanDup ft ignore_existing (rec.drop insertion_point) with
  | .error e => .error e
  | .ok true => .ok none
  | .ok false => .ok (some insertion_point)

/-- RawRecord.update: ordered insertion keeping descending mtime order.
Returns the new record plus True when the tuple was inserted. -/
def RawRecord.update (rec : RawRecord) (ft : FieldTuple)
    (ignore_existing : Bool) : Except DBError (RawRecord × Bool) :=
  match rec.would_update ft ignore_existing with
  | .error e => .error e
  | .ok none => .ok (rec, false)
  | .ok (some insertion_point) => .ok (insertAt insertion_point ft rec, true)

instance [DecidableEq ε] [DecidableEq α] : DecidableEq (Except ε α) := fun a b =>
  match a, b with
  | .ok x, .ok y =>
      if h : x = y then .isTrue (by rw [h]) else .isFalse (by intro hc; cases hc; exact h rfl)
  | .error x, .error y =>
      if h : x = y then .isTrue (by rw [h]) else .isFalse (by intro hc; cases hc; exact h rfl)
  | .ok _, .error _ => .isFalse (by intro hc; cases hc)
  | .error _, .ok _ => .isFalse (by intro hc; cases hc)

/-- RawDatabase from src/passmate/raw_db.py: is_sync_copy flag plus the
records dict (insertion-ordered, hence an association list). -/
structure RawDatabase where
  is_sync_copy : Bool
  records : List (String × RawRecord)
  deriving Repr, DecidableEq

/-- RawDatabase.__init__. -/
def RawDatabase.init : RawDatabase := ⟨false, []⟩

/-- The record stored under a record id, the empty history when absent. -/
def lookupRec (db : RawDatabase) (record_id : String) : RawRecord :=
  (alLookup record_id db.records).getD []

/-- RawDatabase.update: creates the record on demand (subject to the
must_create_record / cannot_create_record assertions used while loading)
and delegates to RawRecord.update. -/
def RawDatabase.update (db : RawDatabase) (u : RawDatabaseUpdate)
    (must_create_record cannot_create_record ignore_existing : Bool) :
    Except DBError (RawDatabase × Bool) :=
  match alLookup u.record_id db.records with
  | some rec =>
    if must_create_record then .error .mustCreateButExists
    else
      match rec.update u.field_tuple ignore_existing with
      | .error e => .error e
      | .ok (rec', b) =>
          .ok ({ db with records := alInsert u.record_id rec' db.records }, b)
  | none =>
    if cannot_create_record then .error .cannotCreateButMissing
    else
      match RawRecord.update [] u.field_tuple ignore_existing with
      | .error e => .error e
      | .ok (rec', b) =>
          .ok ({ db with records := db.records ++ [(u.record_id, rec')] }, b)

/-- RawDatabase.would_update: True when applying u would change the
database (a missing record always would). -/
def RawDatabase.would_update (db : RawDatabase) (u : RawDatabaseUpdate)
    (ignore_existing : Bool) : Except DBError Bool :=
  match alLookup u.record_id db.records with
  | none => .ok true
  | some rec =>
    match rec.would_update u.field_tuple ignore_existing with
    | .error e => .error e
    | .ok insertion_point => .ok insertion_point.isSome

/-- RawDatabase.to_updates: every record's tuples as RawDatabaseUpdates,
in storage order. -/
def RawDatabase.to_updates (db : RawDatabase) : List RawDatabaseUpdate :=
  db.records.flatMap fun p => p.2.map fun ft => ⟨p.1, ft⟩

/-- list(filter(pred, xs)) where pred may raise: elements are tested left
to right and the first exception propagates. -/
def filterE (p : α → Except ε Bool) : List α → Except ε (List α)
  | [] => .ok []
  | a :: as =>
    match p a with
    | .error e => .error e
    | .ok b =>
      match filterE p as with
      | .error e => .error e
      | .ok rest => .ok (if b then a :: rest else rest)

/-- RawDatabase.merge: the sublist of other's updates that are not already
present in this database, computed by side-effect-free previews; a
conflicting tuple raises instead.  (Per its docstring this method only
computes the update list; Session.merge is the caller that applies it.) -/
def RawDatabase.merge (db : RawDatabase) (other : RawDatabase) :
    Except DBError (List RawDatabaseUpdate) :=
  filterE (fun u => db.would_update u true) other.to_updates

/-- The document produced by RawDatabase.json and consumed by
RawDatabase.from_json: {version, purpose, records}, with each tuple as a
4-element array. -/
structure RawDoc where
  version : Int
  purpose : String
  records : List (String × List (String × String × Option String × Int))
  deriving Repr

set_option synthInstance.maxSize 512 in
instance : DecidableEq RawDoc := fun a b =>
  if h : a.version = b.version ∧ a.purpose = b.purpose ∧ a.records = b.records then
    .isTrue (by cases a; cases b; simp_all)
  else .isFalse (by intro hc; cases hc; simp_all)

/-- RawDatabase.json: refuses to serialize a sync copy, asserts the purpose
tag, and emits the records in storage order. -/
def RawDatabase.json (db : RawDatabase) (purpose : String) : Except DBError RawDoc :=
  if db.is_sync_copy then .error .jsonOnSyncCopy
  else if purpose = "primary" ∨ purpose = "sync_copy" then
    .ok ⟨2, purpose, db.records.map fun p => (p.1, p.2.map FieldTuple.json)⟩
  else .error .schemaViolation

/-- The jsonschema.validate call in RawDatabase.from_json, restricted to
documents already of the document shape: version must equal 2, purpose and
every domain must come from their enums.  (Arity and type constraints of
the schema hold by construction of RawDoc.) -/
def RawDoc.schemaOk (doc : RawDoc) : Bool :=
  doc.version = 2 &&
  (doc.purpose = "primary" || doc.purpose = "sync_copy") &&
  doc.records.all fun p => p.2.all fun t => t.1 = "user" || t.1 = "meta"

/-- The inner loop of RawDatabase.from_json: replays one record's tuples,
the first tuple with must_create_record, the rest with cannot_create_record. -/
def replayRecord (record_id : String) (db : RawDatabase) :
    List (String × String × Option String × Int) → Nat → Except DBError RawDatabase
  | [], _ => .ok db
  | (domain, field_name, field_value, mtime) :: rest, idx =>
    match db.update ⟨record_id, ⟨domain, field_name, field_value, mtime⟩⟩
        (decide (idx = 0)) (!decide (idx = 0)) false with
    | .error e => .error e
    | .ok (db', _) => replayRecord record_id db' rest (idx + 1)

/-- The outer loop of RawDatabase.from_json over the records object. -/
def replayRecords (db : RawDatabase) :
    List (String × List (String × String × Option String × Int)) →
    Except DBError RawDatabase
  | [] => .ok db
  | (record_id, fts) :: rest =>
    match replayRecord record_id db fts 0 with
    | .error e => .error e
    | .ok db' => replayRecords db' rest

/-- RawDatabase.from_json: validates the document, sets is_sync_copy from
the purpose tag, then rebuilds the database by replaying every tuple. -/
def RawDatabase.from_json (doc : RawDoc) : Except DBError RawDatabase :=
  if doc.schemaOk then
    replayRecords ⟨doc.purpose = "sync_copy", []⟩ doc.records
  else .error .schemaViolation

/-- SessionError from src/passmate/session.py (constructor names as in the
source; MTIME_IN_THE_FUTURE is the error the spec calls MtimeInThePast: it
is raised when the supplied time is NOT in the future of the last write). -/
inductive SessionError where
  | DB_ALREADY_EXISTS
  | DB_DOES_NOT_EXIST
  | WRONG_PASSPHRASE
  | UNBOUND_RECORD_ACCESS
  | MTIME_IN_THE_FUTURE
  | PATH_COLLISION
  deriving Repr, DecidableEq

/-- Exceptions observable at the session layer: typed SessionExceptions,
DatabaseExceptions bubbling up from the raw layer, and Python's untyped
KeyError and AssertionError. -/
inductive Err where
  | db (e : DBError)
  | session (e : SessionError)
  | keyError
  | assertionError
  deriving Repr, DecidableEq

/-- Python truthiness of a nullable string: None and "" are falsy.  Both
Record._load_field_tuple and Record._update_set_field branch on it. -/
def truthy : Option String → Bool
  | none => false
  | some s => s ≠ ""

/-- The live Record projection from src/passmate/session.py.  The session
back-pointer is not represented: the owning session's state is threaded
explicitly through the mutators, and bound/unbound is the _bound flag. -/
structure Record where
  record_id : String
  creation_pending : Bool
  _path : Option String
  _userdata : List (String × String)
  _path_mtime : Int
  _userdata_mtime : List (String × Int)
  _bound : Bool
  deriving Repr, DecidableEq

/-- Record.__init__ with an existing record id (creation not pending). -/
def Record.mkLoad (record_id : String) : Record :=
  ⟨record_id, false, some "", [], 0, [], false⟩

/-- Record.__init__ with record_id=None: a fresh record pending creation.
The random key is taken as a parameter here. -/
def Record.mkNew (record_id : String) : Record :=
  ⟨record_id, true, some "", [], 0, [], false⟩

/-- Record.field_mtime: last-write time of a user field, 0 when unknown. -/
def Record.field_mtime (r : Record) (field_name : String) : Int :=
  (alLookup field_name r._userdata_mtime).getD 0

/-- Record._load_field_tuple: folds one FieldTuple into the projection,
keeping the highest-mtime value per field (strictly greater wins).  The
assert-False branches on unknown domains / meta fields become errors. -/
def Record._load_field_tuple (r : Record) (ft : FieldTuple) : Except Err Record :=
  if ft.domain = "meta" then
    if ft.field_name = "path" then
      if ft.mtime > r._path_mtime then
        .ok { r with _path := ft.field_value, _path_mtime := ft.mtime }
      else .ok r
    else .error .assertionError
  else if ft.domain = "user" then
    if ft.mtime > r.field_mtime ft.field_name then
      if truthy ft.field_value then
        .ok { r with _userdata := alInsert ft.field_name (ft.field_value.getD "") r._userdata,
                     _userdata_mtime := alInsert ft.field_name ft.mtime r._userdata_mtime }
      else
        .ok { r with _userdata := alErase ft.field_name r._userdata,
                     _userdata_mtime := alInsert ft.field_name ft.mtime r._userdata_mtime }
    else .ok r
  else .error .assertionError

/-- The loop of Record.register_session_load over the raw record. -/
def loadTuples (r : Record) : RawRecord → Except Err Record
  | [] => .ok r
  | ft :: rest =>
    match r._load_field_tuple ft with
    | .error e => .error e
    | .ok r' => loadTuples r' rest

/-- Record.register_session_load: binds a freshly constructed Record by
folding the stored history into the projection. -/
def Record.register_session_load (r : Record) (raw_record : RawRecord) :
    Except Err Record :=
  if r._bound then .error .assertionError
  else if r.creation_pending then .error .assertionError
  else
    match loadTuples r raw_record with
    | .error e => .error e
    | .ok r' => .ok { r' with _bound := true }

/-- Per-session state from src/passmate/session.py.  The PathTree cache is
represented by its validity (tree._root position is None after
tree.invalidate()); the config/passphrase and file contents are outside
the model. -/
structure SessionState where
  db : RawDatabase
  save_required : Bool
  _records : List (String × Record)
  _records_valid : Bool
  reload_counter : Nat
  tree_valid : Bool
  deriving Repr, DecidableEq

/-- Record.invalidate: unbinds the record from its session. -/
def Record.invalidate (r : Record) : Record := { r with _bound := false }

/-- Session.invalidate: unbinds all live records, drops the path index and
the tree. -/
def Session.invalidate (st : SessionState) : SessionState :=
  { st with
    _records := if st._records_valid
                then st._records.map fun p => (p.1, p.2.invalidate)
                else st._records,
    _records_valid := false,
    tree_valid := false }

/-- Session.update: applies a RawDatabaseUpdate directly to the underlying
database (always with ignore_existing=True), marking the session dirty and
optionally invalidating the internal representation when something changed. -/
def Session.update (st : SessionState) (u : RawDatabaseUpdate)
    (invalidates_internal_repr : Bool) : Except Err (SessionState × Bool) :=
  match st.db.update u false false true with
  | .error e => .error (.db e)
  | .ok (db', updated) =>
    if updated then
      let st' := { st with db := db' }
      let st'' := if invalidates_internal_repr then Session.invalidate st' else st'
      .ok ({ st'' with save_required := true }, true)
    else .ok (st, false)

/-- Record.update_rename: emits a new meta/path tuple at the session's
current time and optimistically updates the projection.  State-passing
form of mutation: the triple is (record, session, raised exception), and
on an exception the first two components are the objects as the raise
leaves them. -/
def Record.update_rename (r : Record) (st : SessionState) (cur_time : Int)
    (new_path : Option String) : Record × SessionState × Option Err :=
  if cur_time ≤ r._path_mtime then (r, st, some (.session .MTIME_IN_THE_FUTURE))
  else
    let ft : FieldTuple := ⟨"meta", "path", new_path, cur_time⟩
    match Session.update st ⟨r.record_id, ft⟩ false with
    | .error e => (r, st, some e)
    | .ok (st', _) => ({ r with _path := new_path, _path_mtime := cur_time }, st', none)

/-- Record.update_delete: rename to null. -/
def Record.update_delete (r : Record) (st : SessionState) (cur_time : Int) :
    Record × SessionState × Option Err :=
  r.update_rename st cur_time none

/-- Record._update_set_field: emits a new user field tuple and updates the
projection; a falsy value deletes the entry from the field map (Python del,
which raises KeyError when the field is absent, after the tuple has already
been emitted into the database). -/
def Record._update_set_field (r : Record) (st : SessionState) (cur_time : Int)
    (field_name : String) (value : Option String) : Record × SessionState × Option Err :=
  if cur_time ≤ r.field_mtime field_name then
    (r, st, some (.session .MTIME_IN_THE_FUTURE))
  else
    let ft : FieldTuple := ⟨"user", field_name, value, cur_time⟩
    match Session.update st ⟨r.record_id, ft⟩ false with
    | .error e => (r, st, some e)
    | .ok (st', _) =>
      if truthy value then
        ({ r with _userdata := alInsert field_name (value.getD "") r._userdata,
                  _userdata_mtime := alInsert field_name cur_time r._userdata_mtime },
         st', none)
      else
        match alLookup field_name r._userdata with
        | none => (r, st', some .keyError)
        | some _ =>
          ({ r with _userdata := alErase field_name r._userdata,
                    _userdata_mtime := alInsert field_name cur_time r._userdata_mtime },
           st', none)

/-- Record.__setitem__: no-op when the field already holds exactly this
value, otherwise a field write. -/
def Record.setItem (r : Record) (st : SessionState) (cur_time : Int)
    (field_name : String) (value : Option String) : Record × SessionState × Option Err :=
  if !r._bound then (r, st, some (.session .UNBOUND_RECORD_ACCESS))
  else
    match alLookup field_name r._userdata with
    | some v =>
      if value = some v then (r, st, none)
      else r._update_set_field st cur_time field_name value
    | none => r._update_set_field st cur_time field_name value

/-- Record.__delitem__: a field write of None. -/
def Record.delItem (r : Record) (st : SessionState) (cur_time : Int)
    (field_name : String) : Record × SessionState × Option Err :=
  if !r._bound then (r, st, some (.session .UNBOUND_RECORD_ACCESS))
  else r._update_set_field st cur_time field_name none

/-- Record.__getitem__. -/
def Record.getItem (r : Record) (field_name : String) : Except Err String :=
  if !r._bound then .error (.session .UNBOUND_RECORD_ACCESS)
  else
    match alLookup field_name r._userdata with
    | some v => .ok v
    | none => .error .keyError

/-- Record.register_session_create: triggered by assignment into a session;
emits the initial meta/path tuple and binds the record. -/
def Record.register_session_create (r : Record) (st : SessionState)
    (path : String) (cur_time : Int) : Record × SessionState × Option Err :=
  if r._bound then (r, st, some .assertionError)
  else if !r.creation_pending then (r, st, some .assertionError)
  else
    let init_ft : FieldTuple := ⟨"meta", "path", some path, cur_time⟩
    match r._load_field_tuple init_ft with
    | .error e => (r, st, some e)
    | .ok r' =>
      match Session.update st ⟨r.record_id, init_ft⟩ false with
      | .error e => (r', st, some e)
      | .ok (st', _) =>
        ({ r' with creation_pending := false, _bound := true }, st', none)

/-- The rebuild loop of Session.reload_records_if_invalid as called with
fix_path_collisions=False (the only form the item operations use): loads
each record, skips records with a falsy path, and raises PATH_COLLISION on
an occupied path.  The accumulator is the partially rebuilt path index. -/
def rebuildRecords : List (String × RawRecord) → List (String × Record) →
    List (String × Record) × Option Err
  | [], acc => (acc, none)
  | (record_id, raw_record) :: rest, acc =>
    match (Record.mkLoad record_id).register_session_load raw_record with
    | .error e => (acc, some e)
    | .ok r =>
      match r._path with
      | none => rebuildRecords rest acc
      | some p =>
        if p = "" then rebuildRecords rest acc
        else if (alLookup p acc).isSome then (acc, some (.session .PATH_COLLISION))
        else rebuildRecords rest (acc ++ [(p, r)])

/-- Session.reload_records_if_invalid (fix_path_collisions=False): a no-op
on a valid index, otherwise a full rebuild from the database. -/
def Session.reload_records_if_invalid (st : SessionState) : SessionState × Option Err :=
  if st._records_valid then (st, none)
  else
    match rebuildRecords st.db.records [] with
    | (acc, some e) => ({ st with _records := acc }, some e)
    | (acc, none) =>
      ({ st with _records := acc, _records_valid := true,
                 reload_counter := st.reload_counter + 1 }, none)

/-- Session.__getitem__: reads a record by path; a missing path is an
untyped KeyError. -/
def Session.getItem (st : SessionState) (path : String) :
    SessionState × Except Err Record :=
  match Session.reload_records_if_invalid st with
  | (st', some e) => (st', .error e)
  | (st', none) =>
    match alLookup path st'._records with
    | some r => (st', .ok r)
    | none => (st', .error .keyError)

/-- Session.__delitem__: tombstones the record at path and drops it from
the path index; a missing path is an untyped KeyError. -/
def Session.delItem (st : SessionState) (path : String) (cur_time : Int) :
    SessionState × Option Err :=
  match Session.reload_records_if_invalid st with
  | (st', some e) => (st', some e)
  | (st', none) =>
    match alLookup path st'._records with
    | none => (st', some .keyError)
    | some rec =>
      match rec.update_delete st' cur_time with
      | (_, st'', some e) => (st'', some e)
      | (_, st'', none) =>
        ({ st'' with _records := alErase path st''._records, tree_valid := false },
         none)

/-- Session.__setitem__: creates a record at path or renames a bound record
to path.  Python compares Record objects by identity in its integrity
assert; structural equality stands in for identity here.  The assert on
len(path) and on rec.path() == path become assertionError results. -/
def Session.setItem (st : SessionState) (path : String) (rec : Record)
    (cur_time : Int) : SessionState × Option Err :=
  match Session.reload_records_if_invalid st with
  | (st', some e) => (st', some e)
  | (st', none) =>
    if path = "" then (st', some .assertionError)
    else if (alLookup path st'._records).isSome then
      (st', some (.session .PATH_COLLISION))
    else if rec.creation_pending then
      match rec.register_session_create st' path cur_time with
      | (_, st'', some e) => (st'', some e)
      | (rec', st'', none) =>
        if rec'._path = some path then
          ({ st'' with _records := st''._records ++ [(path, rec')],
                       tree_valid := false }, none)
        else (st'', some .assertionError)
    else
      match rec._path with
      | none => (st', some .keyError)
      | some old_path =>
        match alLookup old_path st'._records with
        | none => (st', some .keyError)
        | some r0 =>
          if r0 ≠ rec then (st', some .assertionError)
          else
            match rec.update_rename st' cur_time (some path) with
            | (_, st'', some e) => (st'', some e)
            | (rec', st'', none) =>
              ({ st'' with
                 _records := alErase old_path (st''._records ++ [(path, rec')]),
                 tree_valid := false }, none)

/-- The application loop of Session.merge: list(filter(...)) applies
Session.update to each proposed update left to right; the first exception
stops the loop, keeping the updates applied so far. -/
def Session.mergeApply (st : SessionState) :
    List RawDatabaseUpdate → SessionState × List RawDatabaseUpdate × Option Err
  | [] => (st, [], none)
  | u :: us =>
    match Session.update st u true with
    | .error e => (st, [], some e)
    | .ok (st', applied) =>
      match Session.mergeApply st' us with
      | (st'', rest, err) => (st'', if applied then u :: rest else rest, err)

/-- Session.merge: previews the remote database's contribution against the
local database, then applies it, returning the applied updates.  The
preview pass is pure, so an exception raised there leaves the session
untouched. -/
def Session.merge (st : SessionState) (remote_db : RawDatabase) :
    SessionState × List RawDatabaseUpdate × Option Err :=
  match st.db.merge remote_db with
  | .error e => (st, [], some (.db e))
  | .ok proposed_updates => Session.mergeApply st proposed_updates

/-- Key of a field tuple for conflict purposes: two tuples collide exactly
when domain, field name and mtime all agree. -/
def keyMatchP (a b : FieldTuple) : Prop :=
  a.domain = b.domain ∧ a.field_name = b.field_name ∧ a.mtime = b.mtime

instance (a b : FieldTuple) : Decidable (keyMatchP a b) := by
  unfold keyMatchP; infer_instance

/-- Storage invariant of a RawRecord: non-increasing mtimes. -/
def SortedDesc (rec : RawRecord) : Prop :=
  rec.Pairwise fun a b => b.mtime ≤ a.mtime

/-- Storage invariant of a RawRecord: no two entries share
(domain, field_name, mtime). -/
def NodupKeys (rec : RawRecord) : Prop :=
  rec.Pairwise fun a b => ¬ keyMatchP a b

/-- The invariants RawRecord.update maintains. -/
def ValidRecord (rec : RawRecord) : Prop := SortedDesc rec ∧ NodupKeys rec

/-- A well-formed database: distinct record ids, well-formed records. -/
def ValidDB (db : RawDatabase) : Prop :=
  (db.records.map Prod.fst).Nodup ∧ ∀ p ∈ db.records, ValidRecord p.2

instance (rec : RawRecord) : Decidable (ValidRecord rec) := by
  unfold ValidRecord SortedDesc NodupKeys; infer_instance

instance (db : RawDatabase) : Decidable (ValidDB db) := by
  unfold ValidDB; infer_instance

/-- u would collide with the database: the stored record holds a tuple with
the same key but different content. -/
def Conflicts (db : RawDatabase) (u : RawDatabaseUpdate) : Prop :=
  ∃ t ∈ lookupRec db u.record_id, keyMatchP t u.field_tuple ∧ t ≠ u.field_tuple

instance (db : RawDatabase) (u : RawDatabaseUpdate) : Decidable (Conflicts db u) := by
  unfold Conflicts; infer_instance

/-- u's tuple is already stored verbatim. -/
def presentIn (db : RawDatabase) (u : RawDatabaseUpdate) : Prop :=
  u.field_tuple ∈ lookupRec db u.record_id

instance (db : RawDatabase) (u : RawDatabaseUpdate) : Decidable (presentIn db u) := by
  unfold presentIn; infer_instance

/-- The tuples among a list of updates that target one record, in order. -/
def tuplesFor (us : List RawDatabaseUpdate) (record_id : String) : List FieldTuple :=
  (us.filter fun u => u.record_id == record_id).map fun u => u.field_tuple

/-- Sequential application of updates through RawDatabase.update with the
default flags (as exercised by the repository's tests). -/
def applyDbUpdates (db : RawDatabase) : List RawDatabaseUpdate → Except DBError RawDatabase
  | [] => .ok db
  | u :: us =>
    match db.update u false false false with
    | .error e => .error e
    | .ok (db', _) => applyDbUpdates db' us

/-- Sequential insertion of tuples (each with its ignore_existing flag)
into a single record through RawRecord.update. -/
def applyTuples (rec : RawRecord) : List (FieldTuple × Bool) → Except DBError RawRecord
  | [] => .ok rec
  | (ft, ig) :: rest =>
    match RawRecord.update rec ft ig with
    | .error e => .error e
    | .ok (rec', _) => applyTuples rec' rest

/-- One step of the specification-side highest-mtime reduction: keep the
strictly newer of the accumulated tuple and the next matching tuple. -/
def latestStep (dom field_name : String) (acc : Option FieldTuple)
    (t : FieldTuple) : Option FieldTuple :=
  if t.domain = dom ∧ t.field_name = field_name then
    match acc with
    | none => some t
    | some a => if t.mtime > a.mtime then some t else some a
  else acc

/-- Specification-side reduction: the stored tuple with the greatest mtime
among those with the given domain and field name (the first such tuple when
several share the maximum, mirroring the strictly-greater update rule of
Record._load_field_tuple). -/
def latest (dom field_name : String) (rec : RawRecord) : Option FieldTuple :=
  rec.foldl (latestStep dom field_name) none

/-- Local database of tests/test_merge.py / tests/test_raw_db_merge.py. -/
def dbLocalC1 : RawDatabase :=
  ⟨false,
   [("RecordA",
     [⟨"user", "password", some "newPW", 400⟩,
      ⟨"user", "password", some "abcd", 300⟩,
      ⟨"user", "email", some "invalid@example.com", 200⟩,
      ⟨"user", "username", some "name1", 100⟩]),
    ("RecordB", [⟨"meta", "path", some "MyTestPath", 400⟩])]⟩

/-- Remote database of tests/test_raw_db_merge.py (a sync copy). -/
def dbRemoteC1 : RawDatabase :=
  ⟨true,
   [("RecordA",
     [⟨"user", "username", some "newName", 500⟩,
      ⟨"user", "password", some "abcd", 300⟩,
      ⟨"user", "email", some "invalid@example.com", 200⟩,
      ⟨"user", "username", some "name1", 100⟩]),
    ("RecordC", [⟨"meta", "path", some "AnotherRecord", 600⟩])]⟩

/-- A fresh session owning a given database (Session.__init__ right after
loading: no live records, path index and tree both invalid). -/
def sessionOn (db : RawDatabase) : SessionState := ⟨db, false, [], false, 0, false⟩

/-- A session on an empty database whose (empty) path index and tree have
been rebuilt and are valid. -/
def sessionEmptyValid : SessionState := ⟨⟨false, []⟩, false, [], true, 1, true⟩

/-- A bound record at path "p" with no user fields, plus the session owning
it (index and tree valid). -/
def recP : Record := ⟨"RID0", false, some "p", [], 5, [], true⟩

/-- See recP. -/
def sessionP : SessionState :=
  ⟨⟨false, [("RID0", [⟨"meta", "path", some "p", 5⟩])]⟩, false,
   [("p", recP)], true, 1, true⟩

/-- Two same-mtime tuples for distinct fields: the order-dependence and
round-trip-reordering counterexamples hinge on them. -/
def ftA5 : FieldTuple := ⟨"user", "a", some "1", 5⟩

/-- See ftA5. -/
def ftB5 : FieldTuple := ⟨"user", "b", some "2", 5⟩

/-- A later tuple for field b, used where distinct mtimes are needed. -/
def ftB7 : FieldTuple := ⟨"user", "b", some "2", 7⟩

/-- A valid primary database storing ftA5 before ftB5 in one record. -/
def dbAB : RawDatabase := ⟨false, [("r", [ftA5, ftB5])]⟩

/-! Association-list facts used throughout. -/

theorem alLookup_eq_some_mem {v : α} {l : List (String × α)} {k : String}
    (h : alLookup k l = some v) : (k, v) ∈ l := by
  induction l with
  | nil => simp [alLookup] at h
  | cons p rest ih =>
    obtain ⟨k', v'⟩ := p
    by_cases hk : k' = k
    · simp [alLookup, hk] at h
      simp [hk, h]
    · simp [alLookup, hk] at h
      exact List.mem_cons_of_mem _ (ih h)

theorem alLookup_append_left {v : α} {l1 : List (String × α)} {k : String}
    (l2 : List (String × α)) (h : alLookup k l1 = some v) :
    alLookup k (l1 ++ l2) = some v := by
  induction l1 with
  | nil => simp [alLookup] at h
  | cons p rest ih =>
    obtain ⟨k', v'⟩ := p
    by_cases hk : k' = k <;> simp_all [alLookup]

theorem alLookup_append_right {l1 : List (String × α)} {k : String}
    (l2 : List (String × α)) (h : alLookup k l1 = none) :
    alLookup k (l1 ++ l2) = alLookup k l2 := by
  induction l1 with
  | nil => simp
  | cons p rest ih =>
    obtain ⟨k', v'⟩ := p
    by_cases hk : k' = k <;> simp_all [alLookup]

theorem alLookup_insert_self (k : String) (v : α) (l : List (String × α)) :
    alLookup k (alInsert k v l) = some v := by
  induction l with
  | nil => simp [alInsert, alLookup]
  | cons p rest ih =>
    obtain ⟨k', v'⟩ := p
    by_cases hk : k' = k <;> simp_all [alInsert, alLookup]

theorem alLookup_insert_ne {k' k : String} (hne : k' ≠ k) (v : α)
    (l : List (String × α)) : alLookup k' (alInsert k v l) = alLookup k' l := by
  have hkk : ¬ k = k' := fun h => hne h.symm
  induction l with
  | nil => simp [alInsert, alLookup, hkk]
  | cons p rest ih =>
    obtain ⟨k0, v0⟩ := p
    by_cases hk : k0 = k
    · subst hk
      simp only [alInsert, if_pos rfl, alLookup, if_neg hkk]
    · simp only [alInsert, if_neg hk]
      by_cases hk' : k0 = k' <;> simp_all [alLookup]

theorem mem_alInsert {p : String × α} {k : String} {v : α} {l : List (String × α)}
    (h : p ∈ alInsert k v l) : p = (k, v) ∨ p ∈ l := by
  induction l with
  | nil => simpa [alInsert] using h
  | cons q rest ih =>
    obtain ⟨k0, v0⟩ := q
    by_cases hk : k0 = k
    · simp only [alInsert, if_pos hk] at h
      rcases List.mem_cons.mp h with h | h
      · exact Or.inl h
      · exact Or.inr (List.mem_cons_of_mem _ h)
    · simp only [alInsert, if_neg hk] at h
      rcases List.mem_cons.mp h with h | h
      · exact Or.inr (by simp [h])
      · rcases ih h with h | h
        · exact Or.inl h
        · exact Or.inr (List.mem_cons_of_mem _ h)

theorem alInsert_keys {k : String} {l : List (String × α)} {w : α}
    (h : alLookup k l = some w) (v : α) :
    (alInsert k v l).map Prod.fst = l.map Prod.fst := by
  induction l with
  | nil => simp [alLookup] at h
  | cons q rest ih =>
    obtain ⟨k0, v0⟩ := q
    by_cases hk : k0 = k
    · simp [alInsert, hk]
    · simp only [alLookup, if_neg hk] at h
      simp [alInsert, if_neg hk, ih h]

theorem alLookup_erase_ne {k' k : String} (hne : k ≠ k') (l : List (String × α)) :
    alLookup k' (alErase k l) = alLookup k' l := by
  induction l with
  | nil => simp [alErase]
  | cons q rest ih =>
    obtain ⟨k0, v0⟩ := q
    by_cases hk : k0 = k
    · subst hk
      simp only [alErase, alLookup, if_pos trivial, if_neg hne]
    · simp only [alErase, if_neg hk]
      by_cases hk' : k0 = k' <;> simp_all [alLookup]

/-! list.insert facts. -/

theorem insertAt_eq (n : Nat) (a : α) (l : List α) :
    insertAt n a l = l.take n ++ a :: l.drop n := by
  induction n generalizing l with
  | zero => simp [insertAt]
  | succ n ih =>
    cases l with
    | nil => simp [insertAt]
    | cons x xs => simp [insertAt, ih]

theorem insertAt_perm (n : Nat) (a : α) (l : List α) :
    (insertAt n a l).Perm (a :: l) := by
  rw [insertAt_eq]
  calc (l.take n ++ a :: l.drop n).Perm (a :: (l.take n ++ l.drop n)) := List.perm_middle
    _ = a :: l := by rw [List.take_append_drop]

theorem mem_insertAt {b a : α} {n : Nat} {l : List α} :
    b ∈ insertAt n a l ↔ b = a ∨ b ∈ l := by
  rw [(insertAt_perm n a l).mem_iff, List.mem_cons]

/-! Correctness of the bisect_left loop on a sorted record. -/

theorem bisectLeftGo_spec (rec : RawRecord) (x : Int) :
    ∀ fuel lo hi, hi - lo ≤ fuel → lo ≤ hi → hi ≤ rec.length →
    (∀ i j, i ≤ j → j < rec.length →
      -(rec.getD i default).mtime ≤ -(rec.getD j default).mtime) →
    (∀ i, i < lo → -(rec.getD i default).mtime < x) →
    (∀ i, hi ≤ i → i < rec.length → ¬ -(rec.getD i default).mtime < x) →
    lo ≤ bisectLeftGo rec x fuel lo hi ∧ bisectLeftGo rec x fuel lo hi ≤ hi ∧
    (∀ i, i < bisectLeftGo rec x fuel lo hi → -(rec.getD i default).mtime < x) ∧
    (∀ i, bisectLeftGo rec x fuel lo hi ≤ i → i < rec.length →
      ¬ -(rec.getD i default).mtime < x) := by
  intro fuel
  induction fuel with
  | zero =>
    intro lo hi hfuel hlohi hhi hmono hbefore hafter
    have : lo = hi := by omega
    subst this
    exact ⟨Nat.le_refl _, Nat.le_refl _, hbefore, hafter⟩
  | succ fuel ih =>
    intro lo hi hfuel hlohi hhi hmono hbefore hafter
    by_cases hlt : lo < hi
    · have hmid1 : lo ≤ (lo + hi) / 2 := by omega
      have hmid2 : (lo + hi) / 2 < hi := by omega
      by_cases hkey : -(rec.getD ((lo + hi) / 2) default).mtime < x
      · have hrec : bisectLeftGo rec x (fuel + 1) lo hi
            = bisectLeftGo rec x fuel ((lo + hi) / 2 + 1) hi := by
          simp only [bisectLeftGo, if_pos hlt, if_pos hkey]
        rw [hrec]
        have hbefore' : ∀ i, i < (lo + hi) / 2 + 1 → -(rec.getD i default).mtime < x := by
          intro i hi'
          have := hmono i ((lo + hi) / 2) (by omega) (by omega)
          omega
        have := ih ((lo + hi) / 2 + 1) hi (by omega) (by omega) hhi hmono hbefore' hafter
        exact ⟨by omega, this.2.1, this.2.2.1, this.2.2.2⟩
      · have hrec : bisectLeftGo rec x (fuel + 1) lo hi
            = bisectLeftGo rec x fuel lo ((lo + hi) / 2) := by
          simp only [bisectLeftGo, if_pos hlt, if_neg hkey]
        rw [hrec]
        have hafter' : ∀ i, (lo + hi) / 2 ≤ i → i < rec.length →
            ¬ -(rec.getD i default).mtime < x := by
          intro i hi1 hi2
          have := hmono ((lo + hi) / 2) i hi1 hi2
          omega
        have := ih lo ((lo + hi) / 2) (by omega) (by omega) (by omega) hmono hbefore hafter'
        exact ⟨this.1, by omega, this.2.2.1, fun i h1 h2 => this.2.2.2 i h1 h2⟩
    · have : lo = hi := by omega
      subst this
      have hrec : bisectLeftGo rec x (fuel + 1) lo lo = lo := by
        simp [bisectLeftGo]
      rw [hrec]
      exact ⟨Nat.le_refl _, Nat.le_refl _, hbefore, hafter⟩

/-- The mtime ordering read off a SortedDesc record, index form. -/
theorem sortedDesc_mono {rec : RawRecord} (hs : SortedDesc rec) :
    ∀ i j, i ≤ j → j < rec.length →
      -(rec.getD i default).mtime ≤ -(rec.getD j default).mtime := by
  intro i j hij hj
  rcases Nat.eq_or_lt_of_le hij with h | h
  · subst h; omega
  · have hi : i < rec.length := Nat.lt_trans h hj
    have := List.pairwise_iff_get.mp hs ⟨i, hi⟩ ⟨j, hj⟩ h
    rw [List.getD_eq_getElem rec default hi, List.getD_eq_getElem rec default hj]
    simp only [List.get_eq_getElem] at this
    omega

/-- What bisect_left returns on a sorted record: a split position with
strictly newer tuples before it and no newer tuple from it on. -/
theorem bisectLeft_spec {rec : RawRecord} (ft : FieldTuple) (hs : SortedDesc rec) :
    bisectLeft rec (-ft.mtime) ≤ rec.length ∧
    (∀ t ∈ rec.take (bisectLeft rec (-ft.mtime)), ft.mtime < t.mtime) ∧
    (∀ t ∈ rec.drop (bisectLeft rec (-ft.mtime)), t.mtime ≤ ft.mtime) := by
  have h := bisectLeftGo_spec rec (-ft.mtime) rec.length 0 rec.length
    (by omega) (by omega) (by omega) (sortedDesc_mono hs)
    (by omega) (by intro i h1 h2; omega)
  rw [show bisectLeftGo rec (-ft.mtime) rec.length 0 rec.length
      = bisectLeft rec (-ft.mtime) from rfl] at h
  refine ⟨h.2.1, ?_, ?_⟩
  · intro t ht
    rcases List.mem_iff_getElem.mp ht with ⟨n, hn, hget⟩
    have hn2 : n < rec.length := by
      have := List.length_take (bisectLeft rec (-ft.mtime)) rec
      omega
    have hn3 : n < bisectLeft rec (-ft.mtime) := by
      have := List.length_take (bisectLeft rec (-ft.mtime)) rec
      omega
    have := h.2.2.1 n hn3
    rw [List.getD_eq_getElem rec default hn2] at this
    rw [List.getElem_take] at hget
    rw [hget] at this
    omega
  · intro t ht
    rcases List.mem_iff_getElem.mp ht with ⟨n, hn, hget⟩
    have hn2 : bisectLeft rec (-ft.mtime) + n < rec.length := by
      have := List.length_drop (bisectLeft rec (-ft.mtime)) rec
      omega
    have := h.2.2.2 (bisectLeft rec (-ft.mtime) + n) (by omega) hn2
    rw [List.getD_eq_getElem rec default hn2] at this
    rw [List.getElem_drop] at hget
    rw [hget] at this
    omega

/-! Characterization of the duplicate scan and of would_update. -/

theorem keyMatchP_symm : Symmetric keyMatchP := by
  intro a b h
  exact ⟨h.1.symm, h.2.1.symm, h.2.2.symm⟩

theorem nodupKeys_pair {rec : RawRecord} (hn : NodupKeys rec) {u t : FieldTuple}
    (hu : u ∈ rec) (ht : t ∈ rec) (hne : u ≠ t) : ¬ keyMatchP u t := by
  have hsym : Symmetric fun a b : FieldTuple => ¬ keyMatchP a b := by
    intro x y h hk
    exact h (keyMatchP_symm hk)
  exact List.Pairwise.forall hsym hn hu ht hne

theorem scanDup_free (ft : FieldTuple) (ig : Bool) :
    ∀ l : RawRecord, (∀ t ∈ l, ¬ keyMatchP t ft) → scanDup ft ig l = .ok false := by
  intro l
  induction l with
  | nil => intro _; rfl
  | cons t rest ih =>
    intro hfree
    by_cases hm : t.mtime = ft.mtime
    · have hnd : ¬ (t.field_name = ft.field_name ∧ t.domain = ft.domain) := by
        intro ⟨h1, h2⟩
        exact hfree t (List.mem_cons_self t rest) ⟨h2, h1, hm⟩
      simp only [scanDup, if_pos hm, if_neg hnd]
      exact ih fun u hu => hfree u (List.mem_cons_of_mem _ hu)
    · simp only [scanDup, if_neg hm]

theorem scanDup_reach (ft : FieldTuple) (ig : Bool) (t : FieldTuple) :
    ∀ l : RawRecord, SortedDesc l → (∀ u ∈ l, u.mtime ≤ ft.mtime) → t ∈ l →
    keyMatchP t ft → (∀ u ∈ l, u ≠ t → ¬ keyMatchP u ft) →
    scanDup ft ig l =
      (if t = ft then (if ig then .ok true else .error .duplicateTuple)
       else .error .conflictingTuple) := by
  intro l
  induction l with
  | nil => intro _ _ ht; exact absurd ht (List.not_mem_nil t)
  | cons h rest ih =>
    intro hs hall ht hk huniq
    by_cases hht : h = t
    · subst hht
      have hm : h.mtime = ft.mtime := hk.2.2
      have hnd : h.field_name = ft.field_name ∧ h.domain = ft.domain := ⟨hk.2.1, hk.1⟩
      simp only [scanDup, if_pos hm, if_pos hnd]
    · have htr : t ∈ rest := by
        rcases List.mem_cons.mp ht with h' | h'
        · exact absurd h'.symm hht
        · exact h'
      by_cases hm : h.mtime = ft.mtime
      · have hnk : ¬ keyMatchP h ft := huniq h (List.mem_cons_self h rest) hht
        have hnd : ¬ (h.field_name = ft.field_name ∧ h.domain = ft.domain) := by
          intro ⟨h1, h2⟩
          exact hnk ⟨h2, h1, hm⟩
        simp only [scanDup, if_pos hm, if_neg hnd]
        exact ih (List.pairwise_cons.mp hs).2
          (fun u hu => hall u (List.mem_cons_of_mem _ hu)) htr hk
          (fun u hu hne => huniq u (List.mem_cons_of_mem _ hu) hne)
      · exfalso
        have h1 : t.mtime ≤ h.mtime := (List.pairwise_cons.mp hs).1 t htr
        have h2 : h.mtime ≤ ft.mtime := hall h (List.mem_cons_self h rest)
        have h3 : t.mtime = ft.mtime := hk.2.2
        omega

theorem would_update_free {rec : RawRecord} {ft : FieldTuple}
    (hfree : ∀ t ∈ rec, ¬ keyMatchP t ft) (ig : Bool) :
    rec.would_update ft ig = .ok (some (bisectLeft rec (-ft.mtime))) := by
  have h := scanDup_free ft ig (rec.drop (bisectLeft rec (-ft.mtime)))
    (fun t ht => hfree t (List.drop_subset _ rec ht))
  simp only [RawRecord.would_update, h]

theorem would_update_hit {rec : RawRecord} {ft t : FieldTuple}
    (hs : SortedDesc rec) (hn : NodupKeys rec) (ht : t ∈ rec)
    (hk : keyMatchP t ft) (ig : Bool) :
    rec.would_update ft ig =
      (if t = ft then (if ig then .ok none else .error .duplicateTuple)
       else .error .conflictingTuple) := by
  have hspec := bisectLeft_spec ft hs
  set ip := bisectLeft rec (-ft.mtime) with hip
  have htd : t ∈ rec.drop ip := by
    have hsplit : rec.take ip ++ rec.drop ip = rec := List.take_append_drop ip rec
    have : t ∈ rec.take ip ++ rec.drop ip := by rw [hsplit]; exact ht
    rcases List.mem_append.mp this with h' | h'
    · exfalso
      have := hspec.2.1 t h'
      have := hk.2.2
      omega
    · exact h'
  have hscan := scanDup_reach ft ig t (rec.drop ip)
    (List.Pairwise.sublist (List.drop_sublist ip rec) hs)
    hspec.2.2 htd hk
    (fun u hu hne => by
      intro hkm
      have hut : keyMatchP u t :=
        ⟨hkm.1.trans hk.1.symm, hkm.2.1.trans hk.2.1.symm, hkm.2.2.trans hk.2.2.symm⟩
      exact nodupKeys_pair hn (List.drop_subset ip rec hu) ht hne hut)
  simp only [RawRecord.would_update]
  rw [← hip, hscan]
  by_cases hteq : t = ft
  · cases ig <;> simp [hteq]
  · simp [hteq]

/-! Effect of RawRecord.update. -/

theorem insertAt_sorted {l : RawRecord} {ft : FieldTuple} {n : Nat}
    (hs : SortedDesc l) (hbefore : ∀ t ∈ l.take n, ft.mtime < t.mtime)
    (hafter : ∀ t ∈ l.drop n, t.mtime ≤ ft.mtime) :
    SortedDesc (insertAt n ft l) := by
  rw [insertAt_eq]
  have hsplit := List.take_append_drop n l
  have hs' : SortedDesc (l.take n ++ l.drop n) := by rw [hsplit]; exact hs
  rcases List.pairwise_append.mp hs' with ⟨h1, h2, h3⟩
  refine List.pairwise_append.mpr ⟨h1, List.pairwise_cons.mpr ⟨hafter, h2⟩, ?_⟩
  intro a ha b hb
  rcases List.mem_cons.mp hb with hb | hb
  · subst hb
    exact le_of_lt (hbefore a ha)
  · exact h3 a ha b hb

theorem would_update_some_eq {rec : RawRecord} {ft : FieldTuple} {ig : Bool} {ip : Nat}
    (h : rec.would_update ft ig = .ok (some ip)) : ip = bisectLeft rec (-ft.mtime) := by
  simp only [RawRecord.would_update] at h
  cases hscan : scanDup ft ig (rec.drop (bisectLeft rec (-ft.mtime))) with
  | error e => rw [hscan] at h; cases h
  | ok b =>
    cases b with
    | true => rw [hscan] at h; cases h
    | false => rw [hscan] at h; cases h; rfl

theorem scanDup_false_ne_true (ft : FieldTuple) :
    ∀ l : RawRecord, scanDup ft false l ≠ .ok true := by
  intro l
  induction l with
  | nil => intro h; cases h
  | cons t rest ih =>
    intro h
    simp only [scanDup] at h
    by_cases hm : t.mtime = ft.mtime
    · rw [if_pos hm] at h
      by_cases hnd : t.field_name = ft.field_name ∧ t.domain = ft.domain
      · rw [if_pos hnd] at h
        by_cases hteq : t = ft
        · rw [if_pos hteq] at h; cases h
        · rw [if_neg hteq] at h; cases h
      · rw [if_neg hnd] at h
        exact ih h
    · rw [if_neg hm] at h; cases h

theorem update_free_eq {rec : RawRecord} {ft : FieldTuple}
    (hfree : ∀ t ∈ rec, ¬ keyMatchP t ft) (ig : Bool) :
    rec.update ft ig = .ok (insertAt (bisectLeft rec (-ft.mtime)) ft rec, true) := by
  simp only [RawRecord.update, would_update_free hfree ig]

theorem update_mem_eq {rec : RawRecord} {ft : FieldTuple}
    (hs : SortedDesc rec) (hn : NodupKeys rec) (hmem : ft ∈ rec) :
    rec.update ft true = .ok (rec, false) ∧
    rec.update ft false = .error .duplicateTuple := by
  have hk : keyMatchP ft ft := ⟨rfl, rfl, rfl⟩
  constructor
  · have h := would_update_hit hs hn hmem hk true
    rw [if_pos rfl, if_pos rfl] at h
    simp only [RawRecord.update, h]
  · have h := would_update_hit hs hn hmem hk false
    rw [if_pos rfl, if_neg Bool.false_ne_true] at h
    simp only [RawRecord.update, h]

theorem update_conflict_eq {rec : RawRecord} {ft t : FieldTuple}
    (hs : SortedDesc rec) (hn : NodupKeys rec) (ht : t ∈ rec)
    (hk : keyMatchP t ft) (hne : t ≠ ft) (ig : Bool) :
    rec.update ft ig = .error .conflictingTuple := by
  have h := would_update_hit hs hn ht hk ig
  rw [if_neg hne] at h
  simp only [RawRecord.update, h]

theorem update_sorted {rec rec' : RawRecord} {ft : FieldTuple} {ig b : Bool}
    (hs : SortedDesc rec) (h : rec.update ft ig = .ok (rec', b)) :
    SortedDesc rec' := by
  simp only [RawRecord.update] at h
  cases hw : rec.would_update ft ig with
  | error e => rw [hw] at h; cases h
  | ok o =>
    cases o with
    | none => rw [hw] at h; cases h; exact hs
    | some ip =>
      rw [hw] at h
      cases h
      have hip := would_update_some_eq hw
      subst hip
      have hspec := bisectLeft_spec ft hs
      exact insertAt_sorted hs hspec.2.1 hspec.2.2

theorem update_ok_perm {rec rec' : RawRecord} {ft : FieldTuple} {ig : Bool}
    (h : rec.update ft ig = .ok (rec', true)) : rec'.Perm (ft :: rec) := by
  simp only [RawRecord.update] at h
  cases hw : rec.would_update ft ig with
  | error e => rw [hw] at h; cases h
  | ok o =>
    cases o with
    | none => rw [hw] at h; cases h
    | some ip => rw [hw] at h; cases h; exact insertAt_perm ip ft rec

theorem update_false_inserted {rec rec' : RawRecord} {ft : FieldTuple} {b : Bool}
    (h : rec.update ft false = .ok (rec', b)) : b = true := by
  simp only [RawRecord.update] at h
  cases hw : rec.would_update ft false with
  | error e => rw [hw] at h; cases h
  | ok o =>
    cases o with
    | none =>
      exfalso
      simp only [RawRecord.would_update] at hw
      cases hscan : scanDup ft false (rec.drop (bisectLeft rec (-ft.mtime))) with
      | error e => rw [hscan] at hw; cases hw
      | ok v =>
        cases v with
        | true => exact scanDup_false_ne_true ft _ hscan
        | false => rw [hscan] at hw; cases hw
    | some ip => rw [hw] at h; cases h; rfl

theorem update_ok_superset {rec rec' : RawRecord} {ft : FieldTuple} {ig b : Bool}
    (h : rec.update ft ig = .ok (rec', b)) : ∀ t ∈ rec, t ∈ rec' := by
  simp only [RawRecord.update] at h
  cases hw : rec.would_update ft ig with
  | error e => rw [hw] at h; cases h
  | ok o =>
    cases o with
    | none => rw [hw] at h; cases h; exact fun t ht => ht
    | some ip =>
      rw [hw] at h
      cases h
      exact fun t ht => mem_insertAt.mpr (Or.inr ht)

/-! Effect of RawDatabase.update with the merge/apply flag combinations. -/

theorem db_update_full {db db' : RawDatabase} {u : RawDatabaseUpdate} {ig b : Bool}
    (h : db.update u false false ig = .ok (db', b)) :
    db'.is_sync_copy = db.is_sync_copy ∧
    RawRecord.update (lookupRec db u.record_id) u.field_tuple ig
      = .ok (lookupRec db' u.record_id, b) ∧
    (∀ id, id ≠ u.record_id → lookupRec db' id = lookupRec db id) ∧
    (∀ p ∈ db'.records, p.2 = lookupRec db' u.record_id ∨ p ∈ db.records) := by
  simp only [RawDatabase.update] at h
  cases hl : alLookup u.record_id db.records with
  | none =>
    rw [hl] at h
    simp only [Bool.false_eq_true, if_false] at h
    cases hup : RawRecord.update [] u.field_tuple ig with
    | error e => rw [hup] at h; cases h
    | ok p =>
      obtain ⟨rec', b'⟩ := p
      rw [hup] at h
      cases h
      have hlook : lookupRec db u.record_id = [] := by
        simp [lookupRec, hl]
      have hlook' : lookupRec { db with records := db.records ++ [(u.record_id, rec')] }
          u.record_id = rec' := by
        simp only [lookupRec]
        rw [alLookup_append_right _ hl]
        simp [alLookup]
      refine ⟨rfl, ?_, ?_, ?_⟩
      · rw [hlook, hlook']
        exact hup
      · intro id hid
        simp only [lookupRec]
        cases hl2 : alLookup id db.records with
        | none =>
          rw [alLookup_append_right _ hl2]
          have hne : ¬ u.record_id = id := fun h' => hid h'.symm
          simp [alLookup, hne]
        | some r => rw [alLookup_append_left _ hl2]
      · intro p hp
        rcases List.mem_append.mp hp with hp | hp
        · exact Or.inr hp
        · left
          rcases List.mem_singleton.mp hp with rfl
          rw [hlook']
  | some rec =>
    rw [hl] at h
    simp only [Bool.false_eq_true, if_false] at h
    cases hup : RawRecord.update rec u.field_tuple ig with
    | error e => rw [hup] at h; cases h
    | ok p =>
      obtain ⟨rec', b'⟩ := p
      rw [hup] at h
      cases h
      have hlook : lookupRec db u.record_id = rec := by simp [lookupRec, hl]
      have hlook' : lookupRec { db with records := alInsert u.record_id rec' db.records }
          u.record_id = rec' := by
        simp [lookupRec, alLookup_insert_self]
      refine ⟨rfl, ?_, ?_, ?_⟩
      · rw [hlook, hlook']
        exact hup
      · intro id hid
        simp only [lookupRec]
        rw [alLookup_insert_ne hid]
      · intro p hp
        rcases mem_alInsert hp with hp | hp
        · left
          subst hp
          rw [hlook']
        · exact Or.inr hp

/-- Record ids never vanish, and an updated database keeps its key list
when the record already existed. -/
theorem db_update_keys {db db' : RawDatabase} {u : RawDatabaseUpdate} {ig b : Bool}
    (h : db.update u false false ig = .ok (db', b)) :
    db'.records.map Prod.fst = db.records.map Prod.fst ∨
    db'.records.map Prod.fst = db.records.map Prod.fst ++ [u.record_id] := by
  simp only [RawDatabase.update] at h
  cases hl : alLookup u.record_id db.records with
  | none =>
    rw [hl] at h
    simp only [Bool.false_eq_true, if_false] at h
    cases hup : RawRecord.update [] u.field_tuple ig with
    | error e => rw [hup] at h; cases h
    | ok p =>
      obtain ⟨rec', b'⟩ := p
      rw [hup] at h
      cases h
      right
      simp
  | some rec =>
    rw [hl] at h
    simp only [Bool.false_eq_true, if_false] at h
    cases hup : RawRecord.update rec u.field_tuple ig with
    | error e => rw [hup] at h; cases h
    | ok p =>
      obtain ⟨rec', b'⟩ := p
      rw [hup] at h
      cases h
      left
      exact alInsert_keys hl rec'

/-! Multiset and order facts about sequential application. -/

theorem tuplesFor_cons_self (u : RawDatabaseUpdate) (us : List RawDatabaseUpdate) :
    tuplesFor (u :: us) u.record_id = u.field_tuple :: tuplesFor us u.record_id := by
  simp [tuplesFor]

theorem tuplesFor_cons_ne {u : RawDatabaseUpdate} {id : String}
    (h : u.record_id ≠ id) (us : List RawDatabaseUpdate) :
    tuplesFor (u :: us) id = tuplesFor us id := by
  simp [tuplesFor, h]

theorem applyDbUpdates_perm {us : List RawDatabaseUpdate} :
    ∀ {db db' : RawDatabase}, applyDbUpdates db us = .ok db' →
    ∀ id, (lookupRec db' id).Perm (lookupRec db id ++ tuplesFor us id) := by
  induction us with
  | nil =>
    intro db db' h id
    cases h
    simp [tuplesFor]
  | cons u us ih =>
    intro db db' h id
    simp only [applyDbUpdates] at h
    cases hstep : db.update u false false false with
    | error e => rw [hstep] at h; cases h
    | ok p =>
      obtain ⟨db1, b⟩ := p
      rw [hstep] at h
      have hfull := db_update_full hstep
      have hb : b = true := update_false_inserted hfull.2.1
      subst hb
      have hins : (lookupRec db1 u.record_id).Perm
          (u.field_tuple :: lookupRec db u.record_id) :=
        update_ok_perm hfull.2.1
      by_cases hid : u.record_id = id
      · subst hid
        rw [tuplesFor_cons_self]
        have h1 := ih h u.record_id
        have h2 : (lookupRec db1 u.record_id ++ tuplesFor us u.record_id).Perm
            ((u.field_tuple :: lookupRec db u.record_id) ++ tuplesFor us u.record_id) :=
          hins.append_right _
        have h4 : (lookupRec db u.record_id ++ u.field_tuple :: tuplesFor us u.record_id).Perm
            (u.field_tuple :: (lookupRec db u.record_id ++ tuplesFor us u.record_id)) :=
          List.perm_middle
        exact (h1.trans h2).trans h4.symm
      · have heq : lookupRec db1 id = lookupRec db id := hfull.2.2.1 id (fun h' => hid h'.symm)
        have h5 := ih h id
        rw [heq] at h5
        rw [tuplesFor_cons_ne hid]
        exact h5

theorem applyDbUpdates_sorted {us : List RawDatabaseUpdate} :
    ∀ {db db' : RawDatabase}, (∀ p ∈ db.records, SortedDesc p.2) →
    applyDbUpdates db us = .ok db' → ∀ p ∈ db'.records, SortedDesc p.2 := by
  induction us with
  | nil =>
    intro db db' hs h
    cases h
    exact hs
  | cons u us ih =>
    intro db db' hs h
    simp only [applyDbUpdates] at h
    cases hstep : db.update u false false false with
    | error e => rw [hstep] at h; cases h
    | ok p =>
      obtain ⟨db1, b⟩ := p
      rw [hstep] at h
      have hfull := db_update_full hstep
      have hlooksorted : SortedDesc (lookupRec db u.record_id) := by
        simp only [lookupRec]
        cases hl : alLookup u.record_id db.records with
        | none =>
          simp only [Option.getD_none]
          exact List.Pairwise.nil
        | some rec =>
          have := hs (u.record_id, rec) (alLookup_eq_some_mem hl)
          simpa using this
      have hs1 : ∀ p ∈ db1.records, SortedDesc p.2 := by
        intro p hp
        rcases hfull.2.2.2 p hp with hp' | hp'
        · rw [hp']
          exact update_sorted hlooksorted hfull.2.1
        · exact hs p hp'
      exact ih hs1 h

/-- A SortedDesc record whose mtimes are distinct is uniquely determined by
its tuple multiset. -/
theorem sorted_nodup_unique {l1 l2 : RawRecord} (hperm : l1.Perm l2)
    (hs1 : SortedDesc l1) (hs2 : SortedDesc l2)
    (hnd : (l1.map FieldTuple.mtime).Nodup) : l1 = l2 := by
  have hstrict : ∀ {l : RawRecord}, SortedDesc l → (l.map FieldTuple.mtime).Nodup →
      l.Pairwise fun a b => b.mtime < a.mtime ∨ a = b := by
    intro l hs hnd'
    have hne : l.Pairwise fun a b => a.mtime ≠ b.mtime := by
      have := (List.pairwise_map).mp hnd'
      exact this
    exact (hs.and hne).imp fun h => Or.inl (lt_of_le_of_ne h.1 (Ne.symm h.2))
  have hnd2 : (l2.map FieldTuple.mtime).Nodup :=
    ((hperm.map FieldTuple.mtime).nodup_iff).mp hnd
  haveI : IsAntisymm FieldTuple fun a b => b.mtime < a.mtime ∨ a = b := ⟨by
    intro a b h1 h2
    rcases h1 with h1 | h1
    · rcases h2 with h2 | h2
      · omega
      · exact h2.symm
    · exact h1⟩
  exact List.eq_of_perm_of_sorted hperm (hstrict hs1 hnd) (hstrict hs2 hnd2)

/-! Sequential insertions into one record (claim C3 machinery). -/

theorem applyTuples_sorted {l : List (FieldTuple × Bool)} :
    ∀ {rec r : RawRecord}, SortedDesc rec → applyTuples rec l = .ok r →
    SortedDesc r := by
  induction l with
  | nil => intro rec r hs h; cases h; exact hs
  | cons p rest ih =>
    intro rec r hs h
    obtain ⟨ft, ig⟩ := p
    simp only [applyTuples] at h
    cases hstep : rec.update ft ig with
    | error e => rw [hstep] at h; cases h
    | ok q =>
      obtain ⟨rec', b⟩ := q
      rw [hstep] at h
      exact ih (update_sorted hs hstep) h

theorem applyTuples_append {l1 l2 : List (FieldTuple × Bool)} :
    ∀ {rec r : RawRecord}, applyTuples rec (l1 ++ l2) = .ok r →
    ∃ r1, applyTuples rec l1 = .ok r1 ∧ applyTuples r1 l2 = .ok r := by
  induction l1 with
  | nil => intro rec r h; exact ⟨rec, rfl, h⟩
  | cons p rest ih =>
    intro rec r h
    obtain ⟨ft, ig⟩ := p
    simp only [List.cons_append, applyTuples] at h ⊢
    cases hstep : rec.update ft ig with
    | error e => rw [hstep] at h; cases h
    | ok q =>
      obtain ⟨rec', b⟩ := q
      rw [hstep] at h
      exact ih h

/-! filter with an exception-throwing predicate. -/

theorem filterE_ok {p : α → Except ε Bool} {f : α → Bool} :
    ∀ l : List α, (∀ a ∈ l, p a = .ok (f a)) → filterE p l = .ok (l.filter f) := by
  intro l
  induction l with
  | nil => intro _; rfl
  | cons a as ih =>
    intro hall
    have ha := hall a (List.mem_cons_self a as)
    have has := ih fun b hb => hall b (List.mem_cons_of_mem _ hb)
    simp only [filterE, ha, has, List.filter_cons]

theorem filterE_error {p : α → Except ε Bool} :
    ∀ l : List α, (∃ a ∈ l, ∃ e, p a = .error e) → ∃ e, filterE p l = .error e := by
  intro l
  induction l with
  | nil => intro ⟨a, ha, _⟩; exact absurd ha (List.not_mem_nil a)
  | cons a as ih =>
    intro ⟨b, hb, e, hbe⟩
    cases hpa : p a with
    | error e' => exact ⟨e', by simp only [filterE, hpa]⟩
    | ok v =>
      have hbas : b ∈ as := by
        rcases List.mem_cons.mp hb with h | h
        · subst h; rw [hpa] at hbe; cases hbe
        · exact h
      obtain ⟨e'', he''⟩ := ih ⟨b, hbas, e, hbe⟩
      exact ⟨e'', by simp only [filterE, hpa, he'']⟩

/-! Structure of to_updates. -/

theorem mem_to_updates {db : RawDatabase} {u : RawDatabaseUpdate} :
    u ∈ db.to_updates ↔ ∃ p ∈ db.records, u.record_id = p.1 ∧ u.field_tuple ∈ p.2 := by
  simp only [RawDatabase.to_updates, List.mem_flatMap, List.mem_map]
  constructor
  · rintro ⟨p, hp, ft, hft, rfl⟩
    exact ⟨p, hp, rfl, hft⟩
  · rintro ⟨p, hp, hid, hft⟩
    exact ⟨p, hp, u.field_tuple, hft, by cases u; simp_all⟩

theorem flatMap_updates_pairwise :
    ∀ l : List (String × RawRecord), (l.map Prod.fst).Nodup →
    (∀ p ∈ l, NodupKeys p.2) →
    (l.flatMap fun p => p.2.map fun ft => RawDatabaseUpdate.mk p.1 ft).Pairwise
      fun u v => u.record_id = v.record_id → ¬ keyMatchP u.field_tuple v.field_tuple := by
  intro l
  induction l with
  | nil => intro _ _; exact List.Pairwise.nil
  | cons p rest ih =>
    intro hkeys hrecs
    obtain ⟨id, rec⟩ := p
    simp only [List.flatMap_cons]
    refine List.pairwise_append.mpr ⟨?_, ?_, ?_⟩
    · refine (List.pairwise_map).mpr ?_
      have hnk := hrecs (id, rec) (List.mem_cons_self _ _)
      refine hnk.imp ?_
      intro a b h
      exact fun _ => h
    · exact ih ((List.nodup_cons.mp hkeys).2) fun q hq => hrecs q (List.mem_cons_of_mem _ hq)
    · intro a ha b hb
      rcases List.mem_map.mp ha with ⟨ft, _, rfl⟩
      rcases List.mem_flatMap.mp hb with ⟨q, hq, hbq⟩
      rcases List.mem_map.mp hbq with ⟨ft', _, rfl⟩
      intro hid
      exfalso
      have : id ∈ rest.map Prod.fst := by
        rw [show id = q.1 from hid]
        exact List.mem_map_of_mem Prod.fst hq
      exact (List.nodup_cons.mp hkeys).1 this

/-- The pairwise no-collision property of a valid database's update list:
two updates aimed at the same record never share a tuple key. -/
theorem to_updates_pairwise {B : RawDatabase} (hB : ValidDB B) :
    B.to_updates.Pairwise fun u v =>
      u.record_id = v.record_id → ¬ keyMatchP u.field_tuple v.field_tuple :=
  flatMap_updates_pairwise B.records hB.1 fun p hp => (hB.2 p hp).2

/-! Database updates on collision-free tuples always insert. -/

theorem db_update_free_full {db : RawDatabase} {u : RawDatabaseUpdate} {ig : Bool}
    (hfree : ∀ t ∈ lookupRec db u.record_id, ¬ keyMatchP t u.field_tuple) :
    ∃ db', db.update u false false ig = .ok (db', true) ∧
      db'.is_sync_copy = db.is_sync_copy ∧
      (lookupRec db' u.record_id).Perm (u.field_tuple :: lookupRec db u.record_id) ∧
      ∀ id, id ≠ u.record_id → lookupRec db' id = lookupRec db id := by
  have hex : ∃ db', db.update u false false ig = .ok (db', true) := by
    simp only [RawDatabase.update]
    cases hl : alLookup u.record_id db.records with
    | none =>
      have hrec : RawRecord.update [] u.field_tuple ig
          = .ok (insertAt (bisectLeft [] (-u.field_tuple.mtime)) u.field_tuple [], true) :=
        update_free_eq (by intro t ht; cases ht) ig
      refine ⟨⟨db.is_sync_copy, db.records ++
        [(u.record_id, insertAt (bisectLeft [] (-u.field_tuple.mtime)) u.field_tuple [])]⟩, ?_⟩
      simp only [hrec, Bool.false_eq_true, if_false]
    | some rec =>
      have hlook : lookupRec db u.record_id = rec := by simp [lookupRec, hl]
      have hfree' : ∀ t ∈ rec, ¬ keyMatchP t u.field_tuple :=
        fun t ht => hfree t (by rw [hlook]; exact ht)
      have hrec := update_free_eq hfree' ig
      refine ⟨⟨db.is_sync_copy, alInsert u.record_id
        (insertAt (bisectLeft rec (-u.field_tuple.mtime)) u.field_tuple rec) db.records⟩, ?_⟩
      simp only [hrec, Bool.false_eq_true, if_false]
  obtain ⟨db', hdb⟩ := hex
  have hfull := db_update_full hdb
  exact ⟨db', hdb, hfull.1, update_ok_perm hfull.2.1, hfull.2.2.1⟩

theorem session_update_true_eq {st : SessionState} {u : RawDatabaseUpdate}
    {db' : RawDatabase} (h : st.db.update u false false true = .ok (db', true)) :
    Session.update st u true =
      .ok ({ Session.invalidate { st with db := db' } with save_required := true }, true) := by
  simp only [Session.update, h, if_true]

theorem mergeApply_free {us : List RawDatabaseUpdate} :
    ∀ {st : SessionState},
    (∀ u ∈ us, ∀ t ∈ lookupRec st.db u.record_id, ¬ keyMatchP t u.field_tuple) →
    us.Pairwise (fun u v =>
      u.record_id = v.record_id → ¬ keyMatchP u.field_tuple v.field_tuple) →
    ∃ st', Session.mergeApply st us = (st', us, none) ∧
      ∀ id, (lookupRec st'.db id).Perm (lookupRec st.db id ++ tuplesFor us id) := by
  induction us with
  | nil =>
    intro st _ _
    refine ⟨st, rfl, ?_⟩
    intro id
    simp [tuplesFor]
  | cons u us ih =>
    intro st hfree hpw
    obtain ⟨db', h1, hsync, hperm1, hother⟩ :=
      @db_update_free_full st.db u true (hfree u (List.mem_cons_self u us))
    have hsess := session_update_true_eq h1
    set st1 : SessionState :=
      { Session.invalidate { st with db := db' } with save_required := true } with hst1
    have hdb1 : st1.db = db' := rfl
    obtain ⟨hpwu, hpwrest⟩ := List.pairwise_cons.mp hpw
    have hfree' : ∀ v ∈ us, ∀ t ∈ lookupRec st1.db v.record_id,
        ¬ keyMatchP t v.field_tuple := by
      rw [hdb1]
      intro v hv t ht
      by_cases hvid : v.record_id = u.record_id
      · rw [hvid] at ht
        rcases List.mem_cons.mp (hperm1.mem_iff.mp ht) with ht2 | ht2
        · subst ht2
          exact hpwu v hv hvid.symm
        · exact hfree v (List.mem_cons_of_mem _ hv) t (by rw [hvid]; exact ht2)
      · rw [hother v.record_id hvid] at ht
        exact hfree v (List.mem_cons_of_mem _ hv) t ht
    obtain ⟨st', hrun, hperm⟩ := ih hfree' hpwrest
    refine ⟨st', ?_, ?_⟩
    · simp only [Session.mergeApply, hsess, hrun, if_true]
    · intro id
      have hstep := hperm id
      rw [hdb1] at hstep
      by_cases hid : u.record_id = id
      · subst hid
        rw [tuplesFor_cons_self]
        have h2 : (lookupRec db' u.record_id ++ tuplesFor us u.record_id).Perm
            ((u.field_tuple :: lookupRec st.db u.record_id) ++ tuplesFor us u.record_id) :=
          hperm1.append_right _
        have h4 : (lookupRec st.db u.record_id ++
            u.field_tuple :: tuplesFor us u.record_id).Perm
            (u.field_tuple :: (lookupRec st.db u.record_id ++ tuplesFor us u.record_id)) :=
          List.perm_middle
        exact (hstep.trans h2).trans h4.symm
      · rw [hother id (fun h' => hid h'.symm)] at hstep
        rw [tuplesFor_cons_ne hid]
        exact hstep

/-! The pure conflict preview of RawDatabase.would_update / merge. -/

theorem db_would_update_char {db : RawDatabase} {u : RawDatabaseUpdate}
    (hdb : ValidDB db) (hnc : ¬ Conflicts db u) :
    db.would_update u true = .ok (!decide (presentIn db u)) := by
  simp only [RawDatabase.would_update]
  cases hl : alLookup u.record_id db.records with
  | none =>
    have : ¬ presentIn db u := by
      simp [presentIn, lookupRec, hl]
    simp [this]
  | some rec =>
    have hlook : lookupRec db u.record_id = rec := by simp [lookupRec, hl]
    have hvalid := hdb.2 (u.record_id, rec) (alLookup_eq_some_mem hl)
    by_cases hmem : u.field_tuple ∈ rec
    · have h := would_update_hit hvalid.1 hvalid.2 hmem ⟨rfl, rfl, rfl⟩ true
      rw [if_pos rfl, if_pos rfl] at h
      have hpres : presentIn db u := by rw [presentIn, hlook]; exact hmem
      simp [h, hpres]
    · have hfree : ∀ t ∈ rec, ¬ keyMatchP t u.field_tuple := by
        intro t ht hk
        by_cases hte : t = u.field_tuple
        · exact hmem (hte ▸ ht)
        · exact hnc ⟨t, by rw [hlook]; exact ht, hk, hte⟩
      have h := @would_update_free rec u.field_tuple hfree true
      have hpres : ¬ presentIn db u := by rw [presentIn, hlook]; exact hmem
      simp [h, hpres]

theorem db_would_update_conflict {db : RawDatabase} {u : RawDatabaseUpdate}
    (hdb : ValidDB db) (hc : Conflicts db u) :
    db.would_update u true = .error .conflictingTuple := by
  obtain ⟨t, ht, hk, hne⟩ := hc
  simp only [RawDatabase.would_update]
  cases hl : alLookup u.record_id db.records with
  | none =>
    exfalso
    rw [lookupRec, hl] at ht
    simp at ht
  | some rec =>
    have hlook : lookupRec db u.record_id = rec := by simp [lookupRec, hl]
    rw [hlook] at ht
    have hvalid := hdb.2 (u.record_id, rec) (alLookup_eq_some_mem hl)
    have h := would_update_hit hvalid.1 hvalid.2 ht hk true
    rw [if_neg hne] at h
    simp [h]

theorem db_merge_ok {A B : RawDatabase} (hA : ValidDB A)
    (hnc : ∀ u ∈ B.to_updates, ¬ Conflicts A u) :
    A.merge B = .ok (B.to_updates.filter fun u => !decide (presentIn A u)) :=
  filterE_ok B.to_updates fun u hu => db_would_update_char hA (hnc u hu)

theorem db_merge_error {A B : RawDatabase} (hA : ValidDB A)
    (hc : ∃ u ∈ B.to_updates, Conflicts A u) :
    ∃ e, A.merge B = .error e := by
  obtain ⟨u, hu, hcu⟩ := hc
  exact filterE_error B.to_updates ⟨u, hu, _, db_would_update_conflict hA hcu⟩

/-! Round-trip machinery: replaying a serialized record. -/

theorem strictDesc_of {rec : RawRecord} (hs : SortedDesc rec)
    (hnd : (rec.map FieldTuple.mtime).Nodup) :
    rec.Pairwise fun a b => b.mtime < a.mtime := by
  have hne : rec.Pairwise fun a b => a.mtime ≠ b.mtime := (List.pairwise_map).mp hnd
  exact (hs.and hne).imp fun h => lt_of_le_of_ne h.1 (Ne.symm h.2)

theorem insert_append_eq {cur : RawRecord} {ft : FieldTuple} (hs : SortedDesc cur)
    (hall : ∀ t ∈ cur, ft.mtime < t.mtime) :
    RawRecord.update cur ft false = .ok (cur ++ [ft], true) := by
  have hfree : ∀ t ∈ cur, ¬ keyMatchP t ft := by
    intro t ht hk
    have := hall t ht
    have := hk.2.2
    omega
  have h := update_free_eq hfree false
  have hdrop : cur.drop (bisectLeft cur (-ft.mtime)) = [] := by
    cases hd : cur.drop (bisectLeft cur (-ft.mtime)) with
    | nil => rfl
    | cons t rest =>
      exfalso
      have ht : t ∈ cur.drop (bisectLeft cur (-ft.mtime)) := by rw [hd]; simp
      have h1 := (bisectLeft_spec ft hs).2.2 t ht
      have h2 := hall t (List.drop_subset _ cur ht)
      omega
  have hip : bisectLeft cur (-ft.mtime) = cur.length := by
    have h1 := (bisectLeft_spec ft hs).1
    have h2 : cur.length ≤ bisectLeft cur (-ft.mtime) := by
      have := congrArg List.length hdrop
      simp only [List.length_drop, List.length_nil] at this
      omega
    omega
  rw [h, hip, insertAt_eq, List.take_length, List.drop_length]

theorem alInsert_append_last {k : String} {base : List (String × α)}
    (hbase : alLookup k base = none) (v w : α) :
    alInsert k v (base ++ [(k, w)]) = base ++ [(k, v)] := by
  induction base with
  | nil => simp [alInsert]
  | cons p rest ih =>
    obtain ⟨k0, v0⟩ := p
    by_cases hk : k0 = k
    · rw [alLookup, if_pos hk] at hbase; cases hbase
    · rw [alLookup, if_neg hk] at hbase
      simp only [List.cons_append, alInsert, if_neg hk]
      exact congrArg (List.cons (k0, v0)) (ih hbase)

theorem alLookup_eq_none_iff {k : String} {l : List (String × α)} :
    alLookup k l = none ↔ k ∉ l.map Prod.fst := by
  induction l with
  | nil => simp [alLookup]
  | cons p rest ih =>
    obtain ⟨k0, v0⟩ := p
    simp only [alLookup, List.map_cons, List.mem_cons]
    by_cases hk : k0 = k
    · subst hk
      simp
    · simp only [if_neg hk, ih]
      constructor
      · intro h hc
        rcases hc with hc | hc
        · exact hk hc.symm
        · exact h hc
      · intro h hc
        exact h (Or.inr hc)

theorem replayRecord_go {id : String} :
    ∀ (todo done : RawRecord) (base : List (String × RawRecord)) (idx : Nat) (sc : Bool),
    idx ≠ 0 → alLookup id base = none →
    ((done ++ todo).Pairwise fun a b => b.mtime < a.mtime) →
    replayRecord id ⟨sc, base ++ [(id, done)]⟩ (todo.map FieldTuple.json) idx
      = .ok ⟨sc, base ++ [(id, done ++ todo)]⟩ := by
  intro todo
  induction todo with
  | nil =>
    intro done base idx sc _ _ _
    simp [replayRecord]
  | cons ft rest ih =>
    intro done base idx sc hidx hbase hstrict
    have hpieces := List.pairwise_append.mp hstrict
    have hsorted : SortedDesc done := hpieces.1.imp fun h => le_of_lt h
    have hall : ∀ t ∈ done, ft.mtime < t.mtime :=
      fun t ht => hpieces.2.2 t ht ft (List.mem_cons_self ft rest)
    have hlk : alLookup id (base ++ [(id, done)]) = some done := by
      rw [alLookup_append_right _ hbase]
      simp [alLookup]
    have hdec : decide (idx = 0) = false := decide_eq_false hidx
    have hup : RawDatabase.update ⟨sc, base ++ [(id, done)]⟩
        ⟨id, ft⟩ (decide (idx = 0)) (!decide (idx = 0)) false
        = .ok (⟨sc, base ++ [(id, done ++ [ft])]⟩, true) := by
      simp only [RawDatabase.update, hlk, hdec, Bool.false_eq_true, if_false,
        insert_append_eq hsorted hall, alInsert_append_last hbase]
    show replayRecord id ⟨sc, base ++ [(id, done)]⟩
        (FieldTuple.json ft :: rest.map FieldTuple.json) idx = _
    have hjson : (⟨ft.domain, ft.field_name, ft.field_value, ft.mtime⟩ : FieldTuple) = ft := rfl
    simp only [replayRecord, FieldTuple.json, hjson, hup]
    have hstrict' : ((done ++ [ft]) ++ rest).Pairwise fun a b => b.mtime < a.mtime := by
      rw [List.append_assoc, List.singleton_append]
      exact hstrict
    have := ih (done ++ [ft]) base (idx + 1) sc (Nat.succ_ne_zero idx) hbase hstrict'
    rw [this, List.append_assoc, List.singleton_append]

theorem replayRecord_start {id : String} {recs : List (String × RawRecord)} {sc : Bool}
    (hlk : alLookup id recs = none) {rec : RawRecord} (hne : rec ≠ [])
    (hstrict : rec.Pairwise fun a b => b.mtime < a.mtime) :
    replayRecord id ⟨sc, recs⟩ (rec.map FieldTuple.json) 0 = .ok ⟨sc, recs ++ [(id, rec)]⟩ := by
  cases rec with
  | nil => exact absurd rfl hne
  | cons ft rest =>
    have hup : RawDatabase.update ⟨sc, recs⟩ ⟨id, ft⟩ (decide (0 = 0)) (!decide (0 = 0)) false
        = .ok (⟨sc, recs ++ [(id, [ft])]⟩, true) := by
      simp only [RawDatabase.update, hlk, decide_True, Bool.not_true, Bool.false_eq_true, if_false]
      rfl
    show replayRecord id ⟨sc, recs⟩ (FieldTuple.json ft :: rest.map FieldTuple.json) 0 = _
    have hgoal : replayRecord id ⟨sc, recs⟩ (FieldTuple.json ft :: rest.map FieldTuple.json) 0
        = (match RawDatabase.update ⟨sc, recs⟩ ⟨id, ft⟩ (decide (0 = 0)) (!decide (0 = 0)) false with
           | .error e => .error e
           | .ok (db', _) => replayRecord id db' (rest.map FieldTuple.json) (0 + 1)) := rfl
    rw [hgoal, hup]
    show replayRecord id ⟨sc, recs ++ [(id, [ft])]⟩ (rest.map FieldTuple.json) 1 = _
    have hrest := @replayRecord_go id rest [ft] recs 1 sc (Nat.one_ne_zero) hlk
      (by rw [List.singleton_append]; exact hstrict)
    rw [hrest, List.singleton_append]

theorem replayRecords_full :
    ∀ (docRecs built : List (String × RawRecord)) (sc : Bool),
    (((built ++ docRecs).map Prod.fst).Nodup) →
    (∀ p ∈ docRecs, p.2 ≠ [] ∧ p.2.Pairwise fun a b => b.mtime < a.mtime) →
    replayRecords ⟨sc, built⟩ (docRecs.map fun p => (p.1, p.2.map FieldTuple.json))
      = .ok ⟨sc, built ++ docRecs⟩ := by
  intro docRecs
  induction docRecs with
  | nil =>
    intro built sc _ _
    simp [replayRecords]
  | cons p rest ih =>
    intro built sc hkeys hrecs
    obtain ⟨id, rec⟩ := p
    have hlk : alLookup id built = none := by
      rw [alLookup_eq_none_iff]
      intro hmem
      rw [List.map_append] at hkeys
      rcases List.nodup_append.mp hkeys with ⟨_, _, hdisj⟩
      exact hdisj hmem (by simp)
    have hprops := hrecs (id, rec) (List.mem_cons_self _ _)
    have hstart := @replayRecord_start id built sc hlk rec hprops.1 hprops.2
    simp only [List.map_cons, replayRecords, hstart]
    have hkeys' : (((built ++ [(id, rec)]) ++ rest).map Prod.fst).Nodup := by
      rw [List.append_assoc, List.singleton_append]
      exact hkeys
    have := ih (built ++ [(id, rec)]) sc hkeys'
      (fun q hq => hrecs q (List.mem_cons_of_mem _ hq))
    rw [this, List.append_assoc, List.singleton_append]

theorem db_update_sync_any {db db' : RawDatabase} {u : RawDatabaseUpdate}
    {m c ig b : Bool} (h : db.update u m c ig = .ok (db', b)) :
    db'.is_sync_copy = db.is_sync_copy := by
  simp only [RawDatabase.update] at h
  cases hl : alLookup u.record_id db.records with
  | none =>
    rw [hl] at h
    cases hc : c with
    | true => rw [hc] at h; simp at h
    | false =>
      rw [hc] at h
      simp only [Bool.false_eq_true, if_false] at h
      cases hup : RawRecord.update [] u.field_tuple ig with
      | error e => rw [hup] at h; cases h
      | ok p => obtain ⟨rec', b'⟩ := p; rw [hup] at h; cases h; rfl
  | some rec =>
    rw [hl] at h
    cases hm : m with
    | true => rw [hm] at h; simp at h
    | false =>
      rw [hm] at h
      simp only [Bool.false_eq_true, if_false] at h
      cases hup : RawRecord.update rec u.field_tuple ig with
      | error e => rw [hup] at h; cases h
      | ok p => obtain ⟨rec', b'⟩ := p; rw [hup] at h; cases h; rfl

theorem replayRecord_sync {id : String} :
    ∀ (l : List (String × String × Option String × Int)) (db db' : RawDatabase) (idx : Nat),
    replayRecord id db l idx = .ok db' → db'.is_sync_copy = db.is_sync_copy := by
  intro l
  induction l with
  | nil => intro db db' idx h; cases h; rfl
  | cons q rest ih =>
    intro db db' idx h
    obtain ⟨d, f, v, m⟩ := q
    simp only [replayRecord] at h
    cases hup : db.update ⟨id, ⟨d, f, v, m⟩⟩ (decide (idx = 0)) (!decide (idx = 0)) false with
    | error e => rw [hup] at h; cases h
    | ok p =>
      obtain ⟨db1, b⟩ := p
      rw [hup] at h
      exact (ih db1 db' (idx + 1) h).trans (db_update_sync_any hup)

theorem replayRecords_sync :
    ∀ (l : List (String × List (String × String × Option String × Int)))
      (db db' : RawDatabase),
    replayRecords db l = .ok db' → db'.is_sync_copy = db.is_sync_copy := by
  intro l
  induction l with
  | nil => intro db db' h; cases h; rfl
  | cons q rest ih =>
    intro db db' h
    obtain ⟨id, fts⟩ := q
    simp only [replayRecords] at h
    cases hrep : replayRecord id db fts 0 with
    | error e => rw [hrep] at h; cases h
    | ok db1 => rw [hrep] at h; exact (ih db1 db' h).trans (replayRecord_sync fts db db1 0 hrep)

/-! Association-list facts for the projection maps. -/

theorem alErase_sublist (k : String) (l : List (String × α)) :
    (alErase k l).Sublist l := by
  induction l with
  | nil => simp [alErase]
  | cons p rest ih =>
    obtain ⟨k0, v0⟩ := p
    by_cases hk : k0 = k
    · simp only [alErase, if_pos hk]
      exact (List.sublist_cons_self _ _)
    · simp only [alErase, if_neg hk]
      exact ih.cons₂ _

theorem alLookup_erase_self {l : List (String × α)} (hnd : (l.map Prod.fst).Nodup)
    (k : String) : alLookup k (alErase k l) = none := by
  induction l with
  | nil => simp [alErase, alLookup]
  | cons p rest ih =>
    obtain ⟨k0, v0⟩ := p
    simp only [List.map_cons, List.nodup_cons] at hnd
    by_cases hk : k0 = k
    · subst hk
      simp only [alErase, if_pos rfl]
      rw [alLookup_eq_none_iff]
      exact hnd.1
    · simp only [alErase, if_neg hk, alLookup, if_neg hk]
      exact ih hnd.2

theorem alInsert_keys_none {k : String} {l : List (String × α)}
    (h : alLookup k l = none) (v : α) :
    (alInsert k v l).map Prod.fst = l.map Prod.fst ++ [k] := by
  induction l with
  | nil => simp [alInsert]
  | cons p rest ih =>
    obtain ⟨k0, v0⟩ := p
    rw [alLookup] at h
    by_cases hk : k0 = k
    · rw [if_pos hk] at h; cases h
    · rw [if_neg hk] at h
      simp only [alInsert, if_neg hk, List.map_cons, ih h, List.cons_append]

theorem alInsert_nodup {k : String} {l : List (String × α)}
    (hnd : (l.map Prod.fst).Nodup) (v : α) :
    ((alInsert k v l).map Prod.fst).Nodup := by
  cases hl : alLookup k l with
  | none =>
    rw [alInsert_keys_none hl]
    rw [List.nodup_append]
    refine ⟨hnd, List.nodup_singleton k, ?_⟩
    intro a ha hb
    rcases List.mem_singleton.mp hb with rfl
    exact (alLookup_eq_none_iff.mp hl) ha
  | some w =>
    rw [alInsert_keys hl]
    exact hnd

theorem alErase_nodup {k : String} {l : List (String × α)}
    (hnd : (l.map Prod.fst).Nodup) : ((alErase k l).map Prod.fst).Nodup :=
  List.Nodup.sublist ((alErase_sublist k l).map Prod.fst) hnd


/-! The Record projection computes the highest-mtime reduction. -/

theorem latestStep_eq_none {dom fn : String} {acc : Option FieldTuple} {t : FieldTuple}
    (h : latestStep dom fn acc t = none) : acc = none := by
  simp only [latestStep] at h
  by_cases hc : t.domain = dom ∧ t.field_name = fn
  · rw [if_pos hc] at h
    cases acc with
    | none => rfl
    | some a =>
      exfalso
      by_cases hm : t.mtime > a.mtime <;> simp [hm] at h
  · rw [if_neg hc] at h
    exact h

theorem foldl_latestStep_none_inv (dom fn : String) :
    ∀ (l : List FieldTuple) (acc : Option FieldTuple),
    l.foldl (latestStep dom fn) acc = none → acc = none := by
  intro l
  induction l with
  | nil => intro acc h; exact h
  | cons t rest ih =>
    intro acc h
    rw [List.foldl_cons] at h
    exact latestStep_eq_none (ih _ h)


theorem loadTuples_proj :
    ∀ (rr : RawRecord) (r : Record) (accU : String → Option FieldTuple)
      (accP : Option FieldTuple),
    (∀ t ∈ rr, (t.domain = "meta" ∧ t.field_name = "path") ∨ t.domain = "user") →
    (∀ t ∈ rr, 1 ≤ t.mtime) →
    ((r._userdata.map Prod.fst).Nodup) →
    (∀ f a, accU f = some a →
      alLookup f r._userdata = (if truthy a.field_value then a.field_value else none) ∧
      r.field_mtime f = a.mtime) →
    (∀ f, accU f = none → alLookup f r._userdata = none ∧ r.field_mtime f = 0) →
    (∀ a, accP = some a → r._path = a.field_value ∧ r._path_mtime = a.mtime) →
    (accP = none → r._path_mtime ≤ 0) →
    ∃ r', loadTuples r rr = .ok r' ∧
      r'.record_id = r.record_id ∧ r'.creation_pending = r.creation_pending ∧
      r'._bound = r._bound ∧
      (∀ f a, rr.foldl (latestStep "user" f) (accU f) = some a →
        alLookup f r'._userdata = (if truthy a.field_value then a.field_value else none) ∧
        r'.field_mtime f = a.mtime) ∧
      (∀ f, rr.foldl (latestStep "user" f) (accU f) = none →
        alLookup f r'._userdata = none ∧ r'.field_mtime f = 0) ∧
      (∀ a, rr.foldl (latestStep "meta" "path") accP = some a →
        r'._path = a.field_value ∧ r'._path_mtime = a.mtime) ∧
      (rr.foldl (latestStep "meta" "path") accP = none →
        r'._path = r._path ∧ r'._path_mtime = r._path_mtime) := by
  intro rr
  induction rr with
  | nil =>
    intro r accU accP _ _ hnd hum hu0 hpv hp0
    exact ⟨r, rfl, rfl, rfl, rfl, hum, hu0, hpv, fun _ => ⟨rfl, rfl⟩⟩
  | cons t rest ih =>
    intro r accU accP hdom hpos hnd hum hu0 hpv hp0
    have hpos_t : 1 ≤ t.mtime := hpos t (List.mem_cons_self t rest)
    have hdom_rest : ∀ u ∈ rest,
        (u.domain = "meta" ∧ u.field_name = "path") ∨ u.domain = "user" :=
      fun u hu => hdom u (List.mem_cons_of_mem _ hu)
    have hpos_rest : ∀ u ∈ rest, 1 ≤ u.mtime :=
      fun u hu => hpos u (List.mem_cons_of_mem _ hu)
    have hkey : ∃ r₁, r._load_field_tuple t = .ok r₁ ∧
        r₁.record_id = r.record_id ∧ r₁.creation_pending = r.creation_pending ∧
        r₁._bound = r._bound ∧ ((r₁._userdata.map Prod.fst).Nodup) ∧
        (∀ f a, latestStep "user" f (accU f) t = some a →
          alLookup f r₁._userdata = (if truthy a.field_value then a.field_value else none) ∧
          r₁.field_mtime f = a.mtime) ∧
        (∀ f, latestStep "user" f (accU f) t = none →
          alLookup f r₁._userdata = none ∧ r₁.field_mtime f = 0) ∧
        (∀ a, latestStep "meta" "path" accP t = some a →
          r₁._path = a.field_value ∧ r₁._path_mtime = a.mtime) ∧
        (latestStep "meta" "path" accP t = none →
          r₁._path = r._path ∧ r₁._path_mtime = r._path_mtime) := by
      rcases hdom t (List.mem_cons_self t rest) with ⟨hmeta, hpath⟩ | huser
      · -- a meta/path tuple: only the path state changes
        have hstepU : ∀ f, latestStep "user" f (accU f) t = accU f := by
          intro f
          simp only [latestStep, hmeta]
          rw [if_neg]
          intro ⟨hc, _⟩
          exact absurd hc (by decide)
        have haccstepP : latestStep "meta" "path" accP t
            = (if t.mtime > r._path_mtime then some t else accP) := by
          simp only [latestStep, hmeta, hpath, and_self, if_true]
          cases haccP : accP with
          | none => rw [if_pos (by have := hp0 haccP; omega)]
          | some a0 => rw [(hpv a0 haccP).2]
        have hload : r._load_field_tuple t
            = .ok (if t.mtime > r._path_mtime then
                    { r with _path := t.field_value, _path_mtime := t.mtime } else r) := by
          simp only [Record._load_field_tuple, hmeta, hpath, eq_self_iff_true, if_true]
          by_cases hc : t.mtime > r._path_mtime
          · rw [if_pos hc, if_pos hc]
          · rw [if_neg hc, if_neg hc]
        by_cases hwin : t.mtime > r._path_mtime
        · refine ⟨{ r with _path := t.field_value, _path_mtime := t.mtime },
            by rw [hload, if_pos hwin], rfl, rfl, rfl, hnd, ?_, ?_, ?_, ?_⟩
          · intro f a ha
            rw [hstepU] at ha
            exact hum f a ha
          · intro f ha
            rw [hstepU] at ha
            exact hu0 f ha
          · intro a ha
            rw [haccstepP, if_pos hwin] at ha
            cases ha
            exact ⟨rfl, rfl⟩
          · intro ha
            rw [haccstepP, if_pos hwin] at ha
            cases ha
        · refine ⟨r, by rw [hload, if_neg hwin], rfl, rfl, rfl, hnd, ?_, ?_, ?_, ?_⟩
          · intro f a ha
            rw [hstepU] at ha
            exact hum f a ha
          · intro f ha
            rw [hstepU] at ha
            exact hu0 f ha
          · intro a ha
            rw [haccstepP, if_neg hwin] at ha
            exact hpv a ha
          · intro _
            exact ⟨rfl, rfl⟩
      · -- a user tuple: only one field of the user state changes
        have hnmeta : ¬ t.domain = "meta" := by
          rw [huser]
          intro hc
          exact absurd hc (by decide)
        have hstepP : latestStep "meta" "path" accP t = accP := by
          simp only [latestStep]
          rw [if_neg]
          intro ⟨hc, _⟩
          exact hnmeta hc
        have hstepU : ∀ f, latestStep "user" f (accU f) t
            = (if t.field_name = f then
                (match accU f with
                 | none => some t
                 | some a => if t.mtime > a.mtime then some t else some a)
               else accU f) := by
          intro f
          simp only [latestStep, huser, true_and]
        have haccstep : latestStep "user" t.field_name (accU t.field_name) t
            = (if t.mtime > r.field_mtime t.field_name then some t
               else accU t.field_name) := by
          rw [hstepU, if_pos rfl]
          cases haccU : accU t.field_name with
          | none => rw [if_pos (by rw [(hu0 t.field_name haccU).2]; omega)]
          | some a0 => rw [(hum t.field_name a0 haccU).2]
        have hload : r._load_field_tuple t
            = .ok (if t.mtime > r.field_mtime t.field_name then
                    (if truthy t.field_value then
                      { r with
                        _userdata := alInsert t.field_name (t.field_value.getD "") r._userdata,
                        _userdata_mtime := alInsert t.field_name t.mtime r._userdata_mtime }
                     else
                      { r with
                        _userdata := alErase t.field_name r._userdata,
                        _userdata_mtime := alInsert t.field_name t.mtime r._userdata_mtime })
                   else r) := by
          simp only [Record._load_field_tuple]
          rw [if_neg hnmeta, if_pos (by rw [huser])]
          by_cases hc : t.mtime > r.field_mtime t.field_name
          · rw [if_pos hc, if_pos hc]
            by_cases hc2 : truthy t.field_value
            · rw [if_pos hc2, if_pos hc2]
            · rw [if_neg hc2, if_neg hc2]
          · rw [if_neg hc, if_neg hc]
        by_cases hwin : t.mtime > r.field_mtime t.field_name
        · by_cases htv : truthy t.field_value
          · refine ⟨{ r with
                _userdata := alInsert t.field_name (t.field_value.getD "") r._userdata,
                _userdata_mtime := alInsert t.field_name t.mtime r._userdata_mtime },
              by rw [hload, if_pos hwin, if_pos htv], rfl, rfl, rfl,
              alInsert_nodup hnd _, ?_, ?_, ?_, ?_⟩
            · intro f a ha
              by_cases hf : t.field_name = f
              · subst hf
                rw [haccstep, if_pos hwin] at ha
                cases ha
                refine ⟨?_, ?_⟩
                · rw [if_pos htv]
                  show alLookup t.field_name
                      (alInsert t.field_name (t.field_value.getD "") r._userdata)
                      = t.field_value
                  rw [alLookup_insert_self]
                  cases hv : t.field_value with
                  | none =>
                    exfalso
                    rw [hv] at htv
                    simp [truthy] at htv
                  | some s => simp [hv]
                · show (alLookup t.field_name
                      (alInsert t.field_name t.mtime r._userdata_mtime)).getD 0 = t.mtime
                  rw [alLookup_insert_self]
                  rfl
              · rw [hstepU, if_neg hf] at ha
                have hprev := hum f a ha
                have hne : f ≠ t.field_name := fun h => hf h.symm
                refine ⟨?_, ?_⟩
                · show alLookup f
                      (alInsert t.field_name (t.field_value.getD "") r._userdata) = _
                  rw [alLookup_insert_ne hne]
                  exact hprev.1
                · show (alLookup f
                      (alInsert t.field_name t.mtime r._userdata_mtime)).getD 0 = a.mtime
                  rw [alLookup_insert_ne hne]
                  exact hprev.2
            · intro f ha
              by_cases hf : t.field_name = f
              · subst hf
                rw [haccstep, if_pos hwin] at ha
                cases ha
              · rw [hstepU, if_neg hf] at ha
                have hprev := hu0 f ha
                have hne : f ≠ t.field_name := fun h => hf h.symm
                refine ⟨?_, ?_⟩
                · show alLookup f
                      (alInsert t.field_name (t.field_value.getD "") r._userdata) = none
                  rw [alLookup_insert_ne hne]
                  exact hprev.1
                · show (alLookup f
                      (alInsert t.field_name t.mtime r._userdata_mtime)).getD 0 = 0
                  rw [alLookup_insert_ne hne]
                  exact hprev.2
            · intro a ha
              rw [hstepP] at ha
              exact hpv a ha
            · intro ha
              exact ⟨rfl, rfl⟩
          · refine ⟨{ r with
                _userdata := alErase t.field_name r._userdata,
                _userdata_mtime := alInsert t.field_name t.mtime r._userdata_mtime },
              by rw [hload, if_pos hwin, if_neg htv], rfl, rfl, rfl,
              alErase_nodup hnd, ?_, ?_, ?_, ?_⟩
            · intro f a ha
              by_cases hf : t.field_name = f
              · subst hf
                rw [haccstep, if_pos hwin] at ha
                cases ha
                refine ⟨?_, ?_⟩
                · rw [if_neg htv]
                  show alLookup t.field_name (alErase t.field_name r._userdata) = none
                  exact alLookup_erase_self hnd t.field_name
                · show (alLookup t.field_name
                      (alInsert t.field_name t.mtime r._userdata_mtime)).getD 0 = t.mtime
                  rw [alLookup_insert_self]
                  rfl
              · rw [hstepU, if_neg hf] at ha
                have hprev := hum f a ha
                have hne : f ≠ t.field_name := fun h => hf h.symm
                refine ⟨?_, ?_⟩
                · show alLookup f (alErase t.field_name r._userdata) = _
                  rw [alLookup_erase_ne hf]
                  exact hprev.1
                · show (alLookup f
                      (alInsert t.field_name t.mtime r._userdata_mtime)).getD 0 = a.mtime
                  rw [alLookup_insert_ne hne]
                  exact hprev.2
            · intro f ha
              by_cases hf : t.field_name = f
              · subst hf
                rw [haccstep, if_pos hwin] at ha
                cases ha
              · rw [hstepU, if_neg hf] at ha
                have hprev := hu0 f ha
                have hne : f ≠ t.field_name := fun h => hf h.symm
                refine ⟨?_, ?_⟩
                · show alLookup f (alErase t.field_name r._userdata) = none
                  rw [alLookup_erase_ne hf]
                  exact hprev.1
                · show (alLookup f
                      (alInsert t.field_name t.mtime r._userdata_mtime)).getD 0 = 0
                  rw [alLookup_insert_ne hne]
                  exact hprev.2
            · intro a ha
              rw [hstepP] at ha
              exact hpv a ha
            · intro ha
              exact ⟨rfl, rfl⟩
        · refine ⟨r, by rw [hload, if_neg hwin], rfl, rfl, rfl, hnd, ?_, ?_, ?_, ?_⟩
          · intro f a ha
            by_cases hf : t.field_name = f
            · subst hf
              rw [haccstep, if_neg hwin] at ha
              exact hum _ a ha
            · rw [hstepU, if_neg hf] at ha
              exact hum f a ha
          · intro f ha
            by_cases hf : t.field_name = f
            · subst hf
              rw [haccstep, if_neg hwin] at ha
              exact hu0 _ ha
            · rw [hstepU, if_neg hf] at ha
              exact hu0 f ha
          · intro a ha
            rw [hstepP] at ha
            exact hpv a ha
          · intro _
            exact ⟨rfl, rfl⟩
    obtain ⟨r₁, hload, hrid, hpend, hbound, hnd₁, hum₁, hu0₁, hpv₁, hp₁⟩ := hkey
    have hp0₁ : latestStep "meta" "path" accP t = none → r₁._path_mtime ≤ 0 := by
      intro hnone
      rw [(hp₁ hnone).2]
      exact hp0 (latestStep_eq_none hnone)
    obtain ⟨r', hrun, h1, h2, h3, h4, h5, h6, h7⟩ :=
      ih r₁ (fun f => latestStep "user" f (accU f) t) (latestStep "meta" "path" accP t)
        hdom_rest hpos_rest hnd₁ hum₁ hu0₁ hpv₁ hp0₁
    refine ⟨r', ?_, h1.trans hrid, h2.trans hpend, h3.trans hbound, ?_, ?_, ?_, ?_⟩
    · simp only [loadTuples, hload, hrun]
    · intro f a ha
      rw [List.foldl_cons] at ha
      exact h4 f a ha
    · intro f ha
      rw [List.foldl_cons] at ha
      exact h5 f ha
    · intro a ha
      rw [List.foldl_cons] at ha
      exact h6 a ha
    · intro ha
      rw [List.foldl_cons] at ha
      have hnone := foldl_latestStep_none_inv _ _ rest _ ha
      have hres := h7 ha
      have hbase := hp₁ hnone
      exact ⟨hres.1.trans hbase.1, hres.2.trans hbase.2⟩

/-! Session-state bookkeeping facts for the item operations. -/

theorem reload_valid {st : SessionState} (h : st._records_valid = true) :
    Session.reload_records_if_invalid st = (st, none) := by
  simp [Session.reload_records_if_invalid, h]

theorem session_update_false_state {st st' : SessionState} {u : RawDatabaseUpdate}
    {b : Bool} (h : Session.update st u false = .ok (st', b)) :
    st'._records = st._records ∧ st'._records_valid = st._records_valid ∧
    st'.reload_counter = st.reload_counter ∧ st'.tree_valid = st.tree_valid := by
  simp only [Session.update] at h
  split at h
  · cases h
  · split at h
    · cases h
      refine ⟨?_, ?_, ?_, ?_⟩ <;> simp
    · cases h
      exact ⟨rfl, rfl, rfl, rfl⟩

theorem update_rename_state {r r' : Record} {st st' : SessionState} {t : Int}
    {p : Option String} (h : r.update_rename st t p = (r', st', none)) :
    st'._records = st._records ∧ st'._records_valid = st._records_valid ∧
    st'.reload_counter = st.reload_counter ∧ st'.tree_valid = st.tree_valid ∧
    r'._path = p := by
  simp only [Record.update_rename] at h
  by_cases hm : t ≤ r._path_mtime
  · rw [if_pos hm] at h
    simp [Prod.ext_iff] at h
  · rw [if_neg hm] at h
    cases hup : Session.update st ⟨r.record_id, ⟨"meta", "path", p, t⟩⟩ false with
    | error e =>
      rw [hup] at h
      simp [Prod.ext_iff] at h
    | ok q =>
      obtain ⟨st₂, b⟩ := q
      rw [hup] at h
      simp only [Prod.ext_iff] at h
      obtain ⟨h1, h2, _⟩ := h
      have hst := session_update_false_state hup
      rw [h2] at hst
      exact ⟨hst.1, hst.2.1, hst.2.2.1, hst.2.2.2, by rw [← h1]⟩

theorem register_create_state {r r' : Record} {st st' : SessionState}
    {path : String} {t : Int}
    (h : r.register_session_create st path t = (r', st', none)) :
    st'._records = st._records ∧ st'._records_valid = st._records_valid ∧
    st'.reload_counter = st.reload_counter ∧ st'.tree_valid = st.tree_valid := by
  simp only [Record.register_session_create] at h
  by_cases hb : r._bound = true
  · rw [if_pos hb] at h
    simp [Prod.ext_iff] at h
  · rw [if_neg hb] at h
    by_cases hp : (!r.creation_pending) = true
    · rw [if_pos hp] at h
      simp [Prod.ext_iff] at h
    · rw [if_neg hp] at h
      cases hload : r._load_field_tuple ⟨"meta", "path", some path, t⟩ with
      | error e =>
        rw [hload] at h
        simp [Prod.ext_iff] at h
      | ok r₁ =>
        rw [hload] at h
        cases hup : Session.update st ⟨r.record_id, ⟨"meta", "path", some path, t⟩⟩ false with
        | error e =>
          rw [hup] at h
          simp [Prod.ext_iff] at h
        | ok q =>
          obtain ⟨st₂, b⟩ := q
          rw [hup] at h
          simp only [Prod.ext_iff] at h
          obtain ⟨_, h2, _⟩ := h
          have hst := session_update_false_state hup
          rw [h2] at hst
          exact hst

theorem lookupRec_sorted {db : RawDatabase}
    (hs : ∀ p ∈ db.records, SortedDesc p.2) (id : String) :
    SortedDesc (lookupRec db id) := by
  simp only [lookupRec]
  cases hl : alLookup id db.records with
  | none =>
    simp only [Option.getD_none]
    exact List.Pairwise.nil
  | some rec =>
    have := hs (id, rec) (alLookup_eq_some_mem hl)
    simpa using this

/-! ## The claims -/

/-- C3: for every sequence of successful insertions into a versioned record,
in any order of mtimes, the stored tuple list is at all times sorted
non-increasing by mtime: every successful run ends sorted, and every prefix
of a successful run is itself a successful run that ends sorted. -/
theorem c3_sorted_invariant (l1 l2 : List (FieldTuple × Bool)) (r : RawRecord)
    (h : applyTuples [] (l1 ++ l2) = .ok r) :
    SortedDesc r ∧ ∃ r1, applyTuples [] l1 = .ok r1 ∧ SortedDesc r1 := by
  obtain ⟨r1, h1, h2⟩ := applyTuples_append h
  exact ⟨applyTuples_sorted List.Pairwise.nil h, r1, h1,
    applyTuples_sorted List.Pairwise.nil h1⟩

/-- Witness for C3 at a concrete insertion sequence. -/
theorem c3_witness :
    SortedDesc [ftB5, ftA5] ∧
    ∃ r1, applyTuples [] [(ftA5, false)] = .ok r1 ∧ SortedDesc r1 :=
  c3_sorted_invariant [(ftA5, false)] [(ftB5, false)] [ftB5, ftA5] (by decide)

/-- C4: inserting at an mtime already present in a valid record is a no-op
or DuplicateVersion for an identical tuple (depending on ignore mode),
always a ConflictingVersion error for a same-key tuple with another value,
and a plain coexisting insert when every same-mtime tuple differs in field
name or domain. -/
theorem c4_equal_mtime (rec : RawRecord) (ft : FieldTuple) (hv : ValidRecord rec) :
    (ft ∈ rec →
      RawRecord.update rec ft true = .ok (rec, false) ∧
      RawRecord.update rec ft false = .error .duplicateTuple) ∧
    (∀ t ∈ rec, keyMatchP t ft → t ≠ ft →
      ∀ ig, RawRecord.update rec ft ig = .error .conflictingTuple) ∧
    ((∀ t ∈ rec, ¬ keyMatchP t ft) →
      ∀ ig, ∃ rec', RawRecord.update rec ft ig = .ok (rec', true) ∧
        ft ∈ rec' ∧ ∀ t ∈ rec, t ∈ rec') := by
  refine ⟨fun hmem => update_mem_eq hv.1 hv.2 hmem,
    fun t ht hk hne ig => update_conflict_eq hv.1 hv.2 ht hk hne ig,
    fun hfree ig => ?_⟩
  exact ⟨insertAt (bisectLeft rec (-ft.mtime)) ft rec, update_free_eq hfree ig,
    mem_insertAt.mpr (Or.inl rfl), fun t ht => mem_insertAt.mpr (Or.inr ht)⟩

/-- Witness for C4: ftB5 shares mtime 5 with ftA5 but differs in field
name, so it is inserted and the two tuples coexist. -/
theorem c4_witness :
    ∃ rec', RawRecord.update [ftA5] ftB5 false = .ok (rec', true) ∧
      ftB5 ∈ rec' ∧ ∀ t ∈ [ftA5], t ∈ rec' :=
  (c4_equal_mtime [ftA5] ftB5 (by decide)).2.2 (by decide) false

/-- C6 as amended: two successful application orders of the same updates
produce the same stored record for every id, provided no two tuples
destined for the same record share an mtime (equal-mtime tuples may be
stored in either relative order, so the original claim fails there). -/
theorem c6_order_independence (db : RawDatabase) (us1 us2 : List RawDatabaseUpdate)
    (db1 db2 : RawDatabase) (hperm : us1.Perm us2)
    (hsorted : ∀ p ∈ db.records, SortedDesc p.2)
    (hdist : ∀ id, ((lookupRec db id ++ tuplesFor us1 id).map FieldTuple.mtime).Nodup)
    (h1 : applyDbUpdates db us1 = .ok db1) (h2 : applyDbUpdates db us2 = .ok db2) :
    ∀ id, lookupRec db1 id = lookupRec db2 id := by
  intro id
  have hp1 := applyDbUpdates_perm h1 id
  have hp2 := applyDbUpdates_perm h2 id
  have htf : (tuplesFor us1 id).Perm (tuplesFor us2 id) :=
    (hperm.filter _).map _
  have hq : (lookupRec db1 id).Perm (lookupRec db2 id) :=
    hp1.trans (((htf.append_left (lookupRec db id))).trans hp2.symm)
  have hs1 : SortedDesc (lookupRec db1 id) :=
    lookupRec_sorted (applyDbUpdates_sorted hsorted h1) id
  have hs2 : SortedDesc (lookupRec db2 id) :=
    lookupRec_sorted (applyDbUpdates_sorted hsorted h2) id
  have hnd1 : ((lookupRec db1 id).map FieldTuple.mtime).Nodup :=
    ((hp1.map FieldTuple.mtime).nodup_iff).mpr (hdist id)
  exact sorted_nodup_unique hq hs1 hs2 hnd1

/-- Counterexample to C6 as stated: the same two equal-mtime updates applied
in the two possible orders both succeed but store the record in different
orders, so the resulting databases differ and serialize differently. -/
theorem c6_counterexample :
    applyDbUpdates RawDatabase.init [⟨"r", ftA5⟩, ⟨"r", ftB5⟩]
      = .ok ⟨false, [("r", [ftB5, ftA5])]⟩ ∧
    applyDbUpdates RawDatabase.init [⟨"r", ftB5⟩, ⟨"r", ftA5⟩]
      = .ok ⟨false, [("r", [ftA5, ftB5])]⟩ ∧
    ([⟨"r", ftA5⟩, ⟨"r", ftB5⟩] : List RawDatabaseUpdate).Perm
      [⟨"r", ftB5⟩, ⟨"r", ftA5⟩] ∧
    (⟨false, [("r", [ftB5, ftA5])]⟩ : RawDatabase)
      ≠ ⟨false, [("r", [ftA5, ftB5])]⟩ := by
  refine ⟨by decide, by decide, ?_, by decide⟩
  exact List.Perm.swap _ _ _

/-- Witness for the amended C6 at distinct mtimes. -/
theorem c6_witness :
    applyDbUpdates RawDatabase.init [⟨"r", ftA5⟩, ⟨"r", ftB7⟩]
      = .ok ⟨false, [("r", [ftB7, ftA5])]⟩ ∧
    applyDbUpdates RawDatabase.init [⟨"r", ftB7⟩, ⟨"r", ftA5⟩]
      = .ok ⟨false, [("r", [ftB7, ftA5])]⟩ ∧
    lookupRec ⟨false, [("r", [ftB7, ftA5])]⟩ "r"
      = lookupRec ⟨false, [("r", [ftB7, ftA5])]⟩ "r" :=
  ⟨by decide, by decide,
    c6_order_independence RawDatabase.init
      [⟨"r", ftA5⟩, ⟨"r", ftB7⟩] [⟨"r", ftB7⟩, ⟨"r", ftA5⟩]
      ⟨false, [("r", [ftB7, ftA5])]⟩ ⟨false, [("r", [ftB7, ftA5])]⟩
      (List.Perm.swap _ _ _) (fun p hp => absurd hp (List.not_mem_nil p))
      (by
        intro id
        by_cases h : "r" = id
        · cases h
          decide
        · have hb : (("r" : String) == id) = false := beq_eq_false_iff_ne.mpr h
          simp [tuplesFor, lookupRec, RawDatabase.init, alLookup, hb])
      (by decide) (by decide) "r"⟩

/-- C7: a field write or rename whose supplied time is not beyond the
last-write mtime fails with the MTIME_IN_THE_FUTURE session error (the
error the spec calls MtimeInThePast), leaving the record, the session and
its database untouched. -/
theorem c7_mtime_in_the_past (r : Record) (st : SessionState) (cur_time : Int)
    (field_name : String) (value : Option String) (new_path : Option String) :
    (cur_time ≤ r.field_mtime field_name →
      r._update_set_field st cur_time field_name value
        = (r, st, some (.session .MTIME_IN_THE_FUTURE))) ∧
    (cur_time ≤ r._path_mtime →
      r.update_rename st cur_time new_path
        = (r, st, some (.session .MTIME_IN_THE_FUTURE))) := by
  constructor
  · intro h
    simp only [Record._update_set_field, if_pos h]
  · intro h
    simp only [Record.update_rename, if_pos h]

/-- Witness for C7 on the concrete bound record recP. -/
theorem c7_witness :
    recP._update_set_field sessionP 0 "a" (some "v")
      = (recP, sessionP, some (.session .MTIME_IN_THE_FUTURE)) ∧
    recP.update_rename sessionP 3 (some "q")
      = (recP, sessionP, some (.session .MTIME_IN_THE_FUTURE)) :=
  ⟨(c7_mtime_in_the_past recP sessionP 0 "a" (some "v") (some "q")).1 (by decide),
   (c7_mtime_in_the_past recP sessionP 3 "a" (some "v") (some "q")).2 (by decide)⟩

/-- C10: on a session with a valid path index, reading or deleting a
missing path raises the untyped KeyError (not a SessionException), and the
failed delete returns with the session state, including the database,
unchanged. -/
theorem c10_missing_path (st : SessionState) (path : String) (cur_time : Int)
    (hvalid : st._records_valid = true)
    (habsent : alLookup path st._records = none) :
    Session.getItem st path = (st, .error .keyError) ∧
    Session.delItem st path cur_time = (st, some .keyError) := by
  have hreload := reload_valid hvalid
  constructor
  · simp only [Session.getItem, hreload, habsent]
  · simp only [Session.delItem, hreload, habsent]

/-- Witness for C10 on the concrete valid empty session. -/
theorem c10_witness :
    Session.getItem sessionEmptyValid "x" = (sessionEmptyValid, .error .keyError) ∧
    Session.delItem sessionEmptyValid "x" 1 = (sessionEmptyValid, some .keyError) :=
  c10_missing_path sessionEmptyValid "x" 1 rfl rfl

/-- C8 as amended: setting a field to its current (present) value is a
state-preserving no-op, but deleting an absent field is not: the tombstone
tuple is emitted into the session database before the projection update
raises an untyped KeyError. -/
theorem c8_redundant_writes (r : Record) (st st' : SessionState) (cur_time : Int)
    (field_name : String) (v : String) (b : Bool) :
    (r._bound = true → alLookup field_name r._userdata = some v →
      r.setItem st cur_time field_name (some v) = (r, st, none)) ∧
    (r._bound = true → alLookup field_name r._userdata = none →
      r.field_mtime field_name < cur_time →
      Session.update st ⟨r.record_id, ⟨"user", field_name, none, cur_time⟩⟩ false
        = .ok (st', b) →
      r.delItem st cur_time field_name = (r, st', some .keyError)) := by
  constructor
  · intro hb hlook
    simp only [Record.setItem, hb, Bool.not_true, Bool.false_eq_true, if_false, hlook]
    rw [if_pos trivial]
  · intro hb hlook hlt hup
    simp only [Record.delItem, hb, Bool.not_true, Bool.false_eq_true, if_false,
      Record._update_set_field, if_neg (by omega : ¬ cur_time ≤ r.field_mtime field_name),
      hup, truthy, hlook]

/-- Witness for C8's two branches on a concrete bound record. -/
theorem c8_witness :
    Record.setItem ⟨"RID1", false, some "p", [("a", "v")], 5, [("a", 4)], true⟩
      sessionEmptyValid 9 "a" (some "v")
      = (⟨"RID1", false, some "p", [("a", "v")], 5, [("a", 4)], true⟩,
         sessionEmptyValid, none) :=
  (c8_redundant_writes ⟨"RID1", false, some "p", [("a", "v")], 5, [("a", 4)], true⟩
    sessionEmptyValid sessionEmptyValid 9 "a" "v" true).1 rfl (by decide)

/-- Counterexample to C8 as stated: deleting the absent field "a" of the
bound record recP emits a user/a/null tombstone into the database, marks
the session dirty, and ends in an untyped KeyError, so it is not a
state-preserving no-op. -/
theorem c8_counterexample :
    (Record.delItem recP sessionP 6 "a").2.2 = some .keyError ∧
    (Record.delItem recP sessionP 6 "a").2.1.db
      = ⟨false, [("RID0", [⟨"user", "a", none, 6⟩, ⟨"meta", "path", some "p", 5⟩])]⟩ ∧
    (Record.delItem recP sessionP 6 "a").2.1.db ≠ sessionP.db ∧
    (Record.delItem recP sessionP 6 "a").2.1.save_required = true ∧
    sessionP.save_required = false := by
  refine ⟨?_, ?_, ?_, ?_, ?_⟩ <;> decide

/-- C9 as amended: on a session whose path index is valid, __setitem__ with
an occupied target path fails with PATH_COLLISION regardless of which record
occupies it (also when it is the assigned record itself); on success the path
index is updated in place and remains valid (the reload counter does not
move), only the tree cache is invalidated, and the target path maps to a
record whose projected path is the target path. -/
theorem c9_setitem (st : SessionState) (path : String) (rec : Record)
    (cur_time : Int) (hvalid : st._records_valid = true) :
    ((alLookup path st._records).isSome = true → path ≠ "" →
      Session.setItem st path rec cur_time
        = (st, some (.session .PATH_COLLISION))) ∧
    (∀ st', Session.setItem st path rec cur_time = (st', none) →
      st'._records_valid = true ∧ st'.tree_valid = false ∧
      st'.reload_counter = st.reload_counter ∧
      ∃ r', alLookup path st'._records = some r' ∧ r'._path = some path) := by
  constructor
  · intro hocc hp
    simp only [Session.setItem, reload_valid hvalid]
    rw [if_neg hp, if_pos hocc]
  · intro st' h
    simp only [Session.setItem, reload_valid hvalid] at h
    by_cases hp : path = ""
    · rw [if_pos hp] at h
      simp [Prod.ext_iff] at h
    · rw [if_neg hp] at h
      by_cases hocc : (alLookup path st._records).isSome = true
      · rw [if_pos hocc] at h
        simp [Prod.ext_iff] at h
      · rw [if_neg hocc] at h
        have hnone : alLookup path st._records = none := by
          cases hl : alLookup path st._records with
          | none => rfl
          | some r => rw [hl] at hocc; simp at hocc
        by_cases hcp : rec.creation_pending = true
        · rw [if_pos hcp] at h
          rcases hreg : rec.register_session_create st path cur_time
            with ⟨rec', st'', err⟩
          rw [hreg] at h
          cases err with
          | some e => simp [Prod.ext_iff] at h
          | none =>
            dsimp only at h
            by_cases hrp : rec'._path = some path
            · rw [if_pos hrp] at h
              simp only [Prod.ext_iff] at h
              obtain ⟨h1, _⟩ := h
              have hcr := register_create_state hreg
              rw [← h1]
              refine ⟨by rw [hcr.2.1, hvalid], rfl, by rw [hcr.2.2.1], rec', ?_, hrp⟩
              show alLookup path (st''._records ++ [(path, rec')]) = some rec'
              rw [alLookup_append_right _ (by rw [hcr.1]; exact hnone)]
              simp [alLookup]
            · rw [if_neg hrp] at h
              simp [Prod.ext_iff] at h
        · rw [if_neg hcp] at h
          cases hrpath : rec._path with
          | none =>
            rw [hrpath] at h
            simp [Prod.ext_iff] at h
          | some old_path =>
            rw [hrpath] at h
            dsimp only at h
            cases hlook : alLookup old_path st._records with
            | none =>
              rw [hlook] at h
              simp [Prod.ext_iff] at h
            | some r0 =>
              rw [hlook] at h
              dsimp only at h
              by_cases hr0 : r0 = rec
              · rw [if_neg (fun hn => hn hr0)] at h
                rcases hren : rec.update_rename st cur_time (some path)
                  with ⟨rec', st'', err⟩
                rw [hren] at h
                cases err with
                | some e => simp [Prod.ext_iff] at h
                | none =>
                  dsimp only at h
                  simp only [Prod.ext_iff] at h
                  obtain ⟨h1, _⟩ := h
                  have hrn := update_rename_state hren
                  have hneq : old_path ≠ path := by
                    intro hq
                    rw [hq, hnone] at hlook
                    cases hlook
                  rw [← h1]
                  refine ⟨by rw [hrn.2.1, hvalid], rfl, by rw [hrn.2.2.1],
                    rec', ?_, hrn.2.2.2.2⟩
                  show alLookup path (alErase old_path (st''._records ++ [(path, rec')]))
                    = some rec'
                  rw [alLookup_erase_ne hneq]
                  rw [alLookup_append_right _ (by rw [hrn.1]; exact hnone)]
                  simp [alLookup]
              · rw [if_pos hr0] at h
                simp [Prod.ext_iff] at h

/-- Witness for C9's collision branch: assigning recP back under its own
occupied path "p" collides. -/
theorem c9_witness :
    Session.setItem sessionP "p" recP 9
      = (sessionP, some (.session .PATH_COLLISION)) :=
  (c9_setitem sessionP "p" recP 9 rfl).1 (by decide) (by decide)

/-- Counterexample to C9 as stated: (i) a successful creation does NOT
invalidate the path index — _records_valid stays true and no reload is
scheduled (only the tree cache is dropped); (ii) a path occupied by the
very record being assigned still raises PATH_COLLISION instead of being a
successful rebind. -/
theorem c9_counterexample :
    (Session.setItem sessionEmptyValid "a" (Record.mkNew "AA") 5).2 = none ∧
    (Session.setItem sessionEmptyValid "a" (Record.mkNew "AA") 5).1._records_valid
      = true ∧
    (Session.setItem sessionEmptyValid "a" (Record.mkNew "AA") 5).1.reload_counter
      = 1 ∧
    (Session.setItem sessionEmptyValid "a" (Record.mkNew "AA") 5).1.tree_valid
      = false ∧
    (Session.setItem sessionP "p" recP 7).2
      = some (.session .PATH_COLLISION) := by
  refine ⟨?_, ?_, ?_, ?_, ?_⟩ <;> decide

/-- C5 as amended: loading a versioned history into a fresh Record projects,
for every user field, the maximal-mtime tuple: the field maps to that tuple's
value when the value is truthy (non-null and non-empty), and is absent from
the field map when that value is null OR the empty string; the path is the
maximal-mtime meta/path value, defaulting to the constructor's "" when the
history has no path tuple.  Histories carry positive mtimes and only
meta/path or user tuples, as the database schema guarantees. -/
theorem c5_record_projection (id : String) (rr : RawRecord)
    (hdom : ∀ t ∈ rr, (t.domain = "meta" ∧ t.field_name = "path") ∨ t.domain = "user")
    (hpos : ∀ t ∈ rr, 1 ≤ t.mtime) :
    ∃ r', (Record.mkLoad id).register_session_load rr = .ok r' ∧
      r'._bound = true ∧
      (∀ f, alLookup f r'._userdata
        = match latest "user" f rr with
          | none => none
          | some a => if truthy a.field_value then a.field_value else none) ∧
      (r'._path = match latest "meta" "path" rr with
          | none => some ""
          | some a => a.field_value) := by
  obtain ⟨r₁, hload, _, _, _, hum, hu0, hpv, hp0⟩ :=
    loadTuples_proj rr (Record.mkLoad id) (fun _ => none) none hdom hpos
      (by simp [Record.mkLoad]) (fun f a h => by cases h) (fun f _ => ⟨rfl, rfl⟩)
      (fun a h => by cases h) (fun _ => le_refl 0)
  refine ⟨{ r₁ with _bound := true }, ?_, rfl, ?_, ?_⟩
  · simp only [Record.mkLoad] at hload
    simp only [Record.register_session_load, Record.mkLoad]
    rw [if_neg Bool.false_ne_true, if_neg Bool.false_ne_true]
    rw [hload]
  · intro f
    cases hlat : latest "user" f rr with
    | none => exact (hu0 f hlat).1
    | some a => exact (hum f a hlat).1
  · cases hlat : latest "meta" "path" rr with
    | none => exact (hp0 hlat).1
    | some a => exact (hpv a hlat).1

/-- Witness for C5 on a two-tuple history: the user field "a" projects to
"v" and the path to "p". -/
theorem c5_witness :
    ∃ r', (Record.mkLoad "R").register_session_load
        [⟨"user", "a", some "v", 5⟩, ⟨"meta", "path", some "p", 3⟩] = .ok r' ∧
      r'._bound = true ∧
      (∀ f, alLookup f r'._userdata
        = match latest "user" f
            [⟨"user", "a", some "v", 5⟩, ⟨"meta", "path", some "p", 3⟩] with
          | none => none
          | some a => if truthy a.field_value then a.field_value else none) ∧
      (r'._path = match latest "meta" "path"
            [⟨"user", "a", some "v", 5⟩, ⟨"meta", "path", some "p", 3⟩] with
          | none => some ""
          | some a => a.field_value) :=
  c5_record_projection "R"
    [⟨"user", "a", some "v", 5⟩, ⟨"meta", "path", some "p", 3⟩]
    (by decide) (by decide)

/-- Counterexample to C5 as stated: a maximal-mtime tuple holding the empty
string (which is not null) still leaves the field absent from the current
field map, because Python truthiness treats "" like None. -/
theorem c5_counterexample :
    ∃ r', (Record.mkLoad "R").register_session_load [⟨"user", "a", some "", 5⟩]
        = .ok r' ∧
      alLookup "a" r'._userdata = none ∧
      latest "user" "a" [⟨"user", "a", some "", 5⟩]
        = some ⟨"user", "a", some "", 5⟩ ∧
      FieldTuple.field_value ⟨"user", "a", some "", 5⟩ ≠ none :=
  ⟨⟨"R", false, some "", [], 0, [("a", 5)], true⟩, by decide, by decide, by decide,
    by decide⟩

/-- C1 (judged against Session.merge, which both previews and applies): when
no tuple of the remote database B conflicts with the session's database A,
merge applies exactly the updates of B not already present verbatim in A —
the applied list is precisely B's update list filtered to the non-present
ones, and every record's stored tuples end up as the old tuples plus the
applied ones; when some tuple of B conflicts with A (same record id, domain,
field name and mtime, different content), the whole merge aborts with a
typed database error during the pure preview pass, so the session is left
untouched and no update at all is applied. -/
theorem c1_session_merge (st : SessionState) (B : RawDatabase)
    (hA : ValidDB st.db) (hB : ValidDB B) :
    ((∀ u ∈ B.to_updates, ¬ Conflicts st.db u) →
      ∃ st', Session.merge st B
          = (st', B.to_updates.filter (fun u => !decide (presentIn st.db u)), none) ∧
        (∀ id, (lookupRec st'.db id).Perm (lookupRec st.db id ++
          tuplesFor (B.to_updates.filter fun u => !decide (presentIn st.db u)) id)) ∧
        (∀ u, u ∈ B.to_updates.filter (fun u => !decide (presentIn st.db u)) ↔
          u ∈ B.to_updates ∧ ¬ presentIn st.db u)) ∧
    ((∃ u ∈ B.to_updates, Conflicts st.db u) →
      ∃ e, Session.merge st B = (st, [], some (.db e))) := by
  constructor
  · intro hnc
    have hmerge := db_merge_ok hA hnc
    have hfree : ∀ u ∈ B.to_updates.filter (fun u => !decide (presentIn st.db u)),
        ∀ t ∈ lookupRec st.db u.record_id, ¬ keyMatchP t u.field_tuple := by
      intro u hu t ht hk
      have hmem := List.mem_filter.mp hu
      have hpres : ¬ presentIn st.db u := by simpa using hmem.2
      by_cases hte : t = u.field_tuple
      · exact hpres (show u.field_tuple ∈ lookupRec st.db u.record_id from hte ▸ ht)
      · exact hnc u hmem.1 ⟨t, ht, hk, hte⟩
    have hpw := (to_updates_pairwise hB).filter (fun u => !decide (presentIn st.db u))
    obtain ⟨st', hrun, hperm⟩ := mergeApply_free hfree hpw
    refine ⟨st', ?_, hperm, ?_⟩
    · simp only [Session.merge, hmerge]
      exact hrun
    · intro u
      simp [List.mem_filter]
  · intro hc
    obtain ⟨e, he⟩ := db_merge_error hA hc
    exact ⟨e, by simp only [Session.merge, he]⟩

/-- Witness for C1's no-conflict branch on the databases of
tests/test_raw_db_merge.py. -/
theorem c1_witness :
    ∃ st', Session.merge (sessionOn dbLocalC1) dbRemoteC1
        = (st', dbRemoteC1.to_updates.filter
            (fun u => !decide (presentIn (sessionOn dbLocalC1).db u)), none) ∧
      (∀ id, (lookupRec st'.db id).Perm (lookupRec (sessionOn dbLocalC1).db id ++
        tuplesFor (dbRemoteC1.to_updates.filter
          fun u => !decide (presentIn (sessionOn dbLocalC1).db u)) id)) ∧
      (∀ u, u ∈ dbRemoteC1.to_updates.filter
          (fun u => !decide (presentIn (sessionOn dbLocalC1).db u)) ↔
        u ∈ dbRemoteC1.to_updates ∧ ¬ presentIn (sessionOn dbLocalC1).db u) :=
  (c1_session_merge (sessionOn dbLocalC1) dbRemoteC1 (by decide) (by decide)).1
    (by decide)

/-- C2 as amended: serializing a valid primary database with purpose
"primary" and deserializing the document reproduces the database exactly —
same records, same tuples, same order — provided no record holds two tuples
with the same mtime (replaying an equal-mtime run reverses it); and every
database obtained by deserializing a sync_copy-purpose document refuses to
serialize, with a jsonOnSyncCopy error, whatever purpose is requested. -/
theorem c2_roundtrip (db : RawDatabase)
    (hsync : db.is_sync_copy = false)
    (hkeys : (db.records.map Prod.fst).Nodup)
    (hrecs : ∀ p ∈ db.records, p.2 ≠ [] ∧ ValidRecord p.2 ∧
      (p.2.map FieldTuple.mtime).Nodup ∧
      ∀ t ∈ p.2, t.domain = "user" ∨ t.domain = "meta") :
    (∃ doc, db.json "primary" = .ok doc ∧ RawDatabase.from_json doc = .ok db) ∧
    (∀ doc db', doc.purpose = "sync_copy" → RawDatabase.from_json doc = .ok db' →
      ∀ purpose, db'.json purpose = .error .jsonOnSyncCopy) := by
  constructor
  · have hjson : db.json "primary"
        = .ok ⟨2, "primary", db.records.map fun p => (p.1, p.2.map FieldTuple.json)⟩ := by
      simp [RawDatabase.json, hsync]
    refine ⟨_, hjson, ?_⟩
    have hschema : RawDoc.schemaOk ⟨2, "primary",
        db.records.map fun p => (p.1, p.2.map FieldTuple.json)⟩ = true := by
      simp only [RawDoc.schemaOk, Bool.and_eq_true, Bool.or_eq_true, List.all_eq_true,
        decide_eq_true_eq]
      refine ⟨⟨trivial, Or.inl trivial⟩, ?_⟩
      intro p hp t ht
      rcases List.mem_map.mp hp with ⟨q, hq, rfl⟩
      dsimp only at ht
      rcases List.mem_map.mp ht with ⟨ft, hft, rfl⟩
      rcases (hrecs q hq).2.2.2 ft hft with h | h
      · exact Or.inl h
      · exact Or.inr h
    simp only [RawDatabase.from_json]
    rw [if_pos hschema]
    dsimp only
    rw [show (decide (("primary" : String) = "sync_copy")) = false from rfl]
    have hrun := replayRecords_full db.records [] false
      (by simpa using hkeys)
      (fun p hp => ⟨(hrecs p hp).1, strictDesc_of (hrecs p hp).2.1.1 (hrecs p hp).2.2.1⟩)
    rw [hrun, List.nil_append]
    obtain ⟨sc, recs⟩ := db
    dsimp only at hsync
    subst hsync
    rfl
  · intro doc db' hp h
    simp only [RawDatabase.from_json] at h
    by_cases hs : doc.schemaOk = true
    · rw [if_pos hs] at h
      have hsc := replayRecords_sync doc.records _ db' h
      have htrue : db'.is_sync_copy = true := by
        rw [hsc]
        dsimp only
        rw [hp]
        decide
      intro purpose
      simp [RawDatabase.json, htrue]
    · rw [if_neg hs] at h
      cases h

/-- Witness for C2's round-trip half on the local database of
tests/test_raw_db_merge.py, whose per-record mtimes are distinct. -/
theorem c2_witness :
    ∃ doc, dbLocalC1.json "primary" = .ok doc ∧
      RawDatabase.from_json doc = .ok dbLocalC1 :=
  (c2_roundtrip dbLocalC1 rfl (by decide) (by decide)).1

/-- Counterexample to C2 as stated: the valid primary database dbAB holds
two tuples with equal mtime 5; serializing and deserializing it reverses
that run, so the round trip does not reproduce the database exactly. -/
theorem c2_counterexample :
    ValidDB dbAB ∧ dbAB.is_sync_copy = false ∧
    (∃ doc, dbAB.json "primary" = .ok doc ∧
      RawDatabase.from_json doc = .ok ⟨false, [("r", [ftB5, ftA5])]⟩) ∧
    (⟨false, [("r", [ftB5, ftA5])]⟩ : RawDatabase) ≠ dbAB :=
  ⟨by decide, by decide,
    ⟨⟨2, "primary", [("r", [("user", "a", some "1", 5), ("user", "b", some "2", 5)])]⟩,
      by decide, by decide⟩,
    by decide⟩
